import Mathlib

/-!
Verification of the VFI repository (value-function iteration for a
stochastic growth model).  The C++ sources under `src/Thrust-GPU/functors.hpp`
and `src/Thrust/ar1.cpp` are shallowly embedded below.  Real-valued
floating-point arithmetic is modelled over an arbitrary linear ordered field
`F`; the transcendental library routines the code calls (`exp`, `log`, `erf`,
`sqrt`, binary `pow`) are bundled as the abstract operation record `RealOps`,
since none of the structural properties proved here depend on their values.
Buffers (`Z`, `P`, `K`, `V`, `V0`, `G`) are modelled as total functions from
flat indices, and in-place writes as `Function.update`, mirroring the pointer
arithmetic of the source.
-/

namespace VFI

/-- The real-analytic library functions used by the C++ code, kept abstract. -/
structure RealOps (F : Type) where
  exp : F → F
  log : F → F
  erf : F → F
  sqrt : F → F
  pow : F → F → F

variable {F : Type} [LinearOrderedField F]

/-- The `while((ihi-ilo) > 1)` loop of `binary_val`
(`src/Thrust-GPU/functors.hpp`, lines 300-314).  `imid = (ilo+ihi)/2`; an
exact hit returns `imid`, otherwise the bracket shrinks toward `x` and the
loop returns `ihi` once at most two candidates remain. -/
def bvLoop (x : F) (X : ℕ → F) (ilo ihi : ℕ) : ℕ :=
  if 1 < ihi - ilo then
    let imid := (ilo + ihi) / 2
    if X imid = x then imid
    else if X imid > x then bvLoop x X ilo imid
    else bvLoop x X imid ihi
  else ihi
termination_by ihi - ilo
decreasing_by
  · omega
  · omega

/-- `binary_val` (`src/Thrust-GPU/functors.hpp`, lines 283-315): clamped
monotone-grid search for the first `X[i] >= x`. -/
def binary_val (x : F) (n : ℕ) (X : ℕ → F) : ℕ :=
  if x < X 0 then 0
  else if x > X (n - 1) then n - 1
  else bvLoop x X 0 (n - 1)

example : bvLoop (5 : ℚ) (fun i => if i = 0 then 5 else 7) 0 1 = 1 := by
  simp [bvLoop]

example : binary_val (5 : ℚ) 2 (fun i => if i = 0 then 5 else 7) = 1 := by
  simp [binary_val, bvLoop]

/-- The expectation accumulation `for m: Exp += P[m*nz]*V0[l+m*nk]` shared by
`grid_max` and `binary_max` (pointers are modelled as index functions, so
`P` here is the already-shifted pointer `&P[0]+jx`). -/
def expSum (nz nk : ℕ) (P V0 : ℕ → F) (l : ℕ) : F :=
  ∑ m ∈ Finset.range nz, P (m * nz) * V0 (l + m * nk)

/-- CRRA utility `pow(c,1-eta)/(1-eta)` as written in the maximizers. -/
def crra (R : RealOps F) (eta c : F) : F := R.pow c (1 - eta) / (1 - eta)

/-- The running-maximum scan `for l = 1..n: if (w > wmax) update` of
`grid_max` (lines 354-362), started from candidate `l = 0`. -/
def scanAux (w : ℕ → F) (n : ℕ) : F × ℕ :=
  (List.range' 1 n).foldl (fun acc l => if w l > acc.1 then (w l, l) else acc) (w 0, 0)

/-- `grid_max` (`src/Thrust-GPU/functors.hpp`, lines 341-365): exhaustive
search of the Bellman objective over the `nksub` candidates starting at
`klo`; writes the maximum and `klo` plus the argmax offset. -/
def grid_max (R : RealOps F) (klo nksub nk nz : ℕ) (ydepK eta beta : F)
    (K P V0 : ℕ → F) : F × ℕ :=
  let w := fun l => crra R eta (ydepK - K (klo + l)) + beta * expSum nz nk P V0 l
  let r := scanAux w (nksub - 1)
  (r.1, klo + r.2)

theorem range'_one_concat (n : ℕ) : List.range' 1 (n + 1) = List.range' 1 n ++ [n + 1] := by
  have := List.range'_1_concat 1 n
  simpa [Nat.add_comm] using this

theorem scanAux_spec (w : ℕ → F) (n : ℕ) :
    (scanAux w n).2 ≤ n ∧ w (scanAux w n).2 = (scanAux w n).1 ∧
      ∀ l, l ≤ n → w l ≤ (scanAux w n).1 := by
  induction n with
  | zero =>
    refine ⟨le_refl 0, rfl, ?_⟩
    intro l hl
    simp only [Nat.le_zero] at hl
    simp [scanAux, hl]
  | succ n ih =>
    obtain ⟨h1, h2, h3⟩ := ih
    have hstep : scanAux w (n + 1)
        = if w (n + 1) > (scanAux w n).1 then (w (n + 1), n + 1) else scanAux w n := by
      unfold scanAux
      rw [range'_one_concat, List.foldl_append]
      simp
    by_cases hc : w (n + 1) > (scanAux w n).1
    · rw [hstep, if_pos hc]
      refine ⟨le_refl _, rfl, ?_⟩
      intro l hl
      rcases Nat.lt_or_ge l (n + 1) with h | h
      · exact le_of_lt (lt_of_le_of_lt (h3 l (by omega)) hc)
      · have : l = n + 1 := by omega
        simp [this]
    · rw [hstep, if_neg hc]
      refine ⟨by omega, h2, ?_⟩
      intro l hl
      rcases Nat.lt_or_ge l (n + 1) with h | h
      · exact h3 l (by omega)
      · have : l = n + 1 := by omega
        rw [this]
        exact le_of_not_lt hc

theorem bvLoop_eq_mid (x : F) (X : ℕ → F) (ilo ihi : ℕ) (hg : 1 < ihi - ilo)
    (heq : X ((ilo + ihi) / 2) = x) : bvLoop x X ilo ihi = (ilo + ihi) / 2 := by
  rw [bvLoop]
  simp [hg, heq]

theorem bvLoop_eq_left (x : F) (X : ℕ → F) (ilo ihi : ℕ) (hg : 1 < ihi - ilo)
    (heq : ¬ X ((ilo + ihi) / 2) = x) (hgt : X ((ilo + ihi) / 2) > x) :
    bvLoop x X ilo ihi = bvLoop x X ilo ((ilo + ihi) / 2) := by
  rw [bvLoop]
  simp [hg, heq, hgt]

theorem bvLoop_eq_right (x : F) (X : ℕ → F) (ilo ihi : ℕ) (hg : 1 < ihi - ilo)
    (heq : ¬ X ((ilo + ihi) / 2) = x) (hgt : ¬ X ((ilo + ihi) / 2) > x) :
    bvLoop x X ilo ihi = bvLoop x X ((ilo + ihi) / 2) ihi := by
  rw [bvLoop]
  simp [hg, heq, hgt]

theorem bvLoop_eq_done (x : F) (X : ℕ → F) (ilo ihi : ℕ) (hg : ¬ 1 < ihi - ilo) :
    bvLoop x X ilo ihi = ihi := by
  rw [bvLoop, if_neg hg]

theorem bvLoop_le (x : F) (X : ℕ → F) (ilo ihi : ℕ) :
    bvLoop x X ilo ihi ≤ ihi := by
  induction ilo, ihi using bvLoop.induct x X with
  | case1 ilo ihi hg imid heq =>
    rw [bvLoop_eq_mid x X ilo ihi hg heq]
    omega
  | case2 ilo ihi hg imid heq hgt ih =>
    rw [bvLoop_eq_left x X ilo ihi hg heq hgt]
    have h2 : bvLoop x X ilo ((ilo + ihi) / 2) ≤ (ilo + ihi) / 2 := ih
    omega
  | case3 ilo ihi hg imid heq hgt ih =>
    rw [bvLoop_eq_right x X ilo ihi hg heq hgt]
    exact ih
  | case4 ilo ihi hg =>
    rw [bvLoop_eq_done x X ilo ihi hg]

theorem bvLoop_above (x : F) (X : ℕ → F) (ilo ihi : ℕ) (h : x ≤ X ihi) :
    x ≤ X (bvLoop x X ilo ihi) := by
  induction ilo, ihi using bvLoop.induct x X with
  | case1 ilo ihi hg imid heq =>
    rw [bvLoop_eq_mid x X ilo ihi hg heq]
    exact le_of_eq heq.symm
  | case2 ilo ihi hg imid heq hgt ih =>
    rw [bvLoop_eq_left x X ilo ihi hg heq hgt]
    exact ih (le_of_lt hgt)
  | case3 ilo ihi hg imid heq hgt ih =>
    rw [bvLoop_eq_right x X ilo ihi hg heq hgt]
    exact ih h
  | case4 ilo ihi hg =>
    rw [bvLoop_eq_done x X ilo ihi hg]
    exact h

theorem bvLoop_below (x : F) (X : ℕ → F) (n : ℕ)
    (hmono : ∀ i j, i ≤ j → j < n → X i ≤ X j) :
    ∀ ilo ihi, ilo ≤ ihi → ihi < n → X ilo ≤ x →
      ∀ i, i < bvLoop x X ilo ihi → X i ≤ x := by
  intro ilo₀ ihi₀
  induction ilo₀, ihi₀ using bvLoop.induct x X with
  | case1 ilo ihi hg imid heq =>
    intro hle hn hlo i hi
    rw [bvLoop_eq_mid x X ilo ihi hg heq] at hi
    calc X i ≤ X ((ilo + ihi) / 2) := hmono i _ (by omega) (by omega)
      _ = x := heq
  | case2 ilo ihi hg imid heq hgt ih =>
    intro hle hn hlo i hi
    rw [bvLoop_eq_left x X ilo ihi hg heq hgt] at hi
    exact ih (by omega) (by omega) hlo i hi
  | case3 ilo ihi hg imid heq hgt ih =>
    intro hle hn hlo i hi
    rw [bvLoop_eq_right x X ilo ihi hg heq hgt] at hi
    exact ih (by omega) hn (le_of_not_lt hgt) i hi
  | case4 ilo ihi hg =>
    intro hle hn hlo i hi
    rw [bvLoop_eq_done x X ilo ihi hg] at hi
    calc X i ≤ X ilo := hmono i ilo (by omega) (by omega)
      _ ≤ x := hlo

/-- Range of the clamped search: the returned index is always below `n`. -/
theorem binary_val_lt (x : F) (n : ℕ) (X : ℕ → F) (hn : 1 ≤ n) :
    binary_val x n X < n := by
  unfold binary_val
  split
  · omega
  · split
    · omega
    · have := bvLoop_le x X 0 (n - 1)
      omega

/-- Every index strictly below the returned one carries a grid value `≤ x`,
provided the grid is monotone on `[0,n)` and `X 0 ≤ x`. -/
theorem binary_val_below (x : F) (n : ℕ) (X : ℕ → F) (hn : 1 ≤ n)
    (hmono : ∀ i j, i ≤ j → j < n → X i ≤ X j) (hfeas : X 0 ≤ x) :
    ∀ i, i < binary_val x n X → X i ≤ x := by
  intro i hi
  unfold binary_val at hi
  split at hi
  · omega
  · split at hi
    · calc X i ≤ X (n - 1) := hmono i (n - 1) (by omega) (by omega)
        _ ≤ x := le_of_lt (by assumption)
    · exact bvLoop_below x X n hmono 0 (n - 1) (by omega) (by omega) hfeas i hi

/-- In the unclamped branch the returned grid value is at least `x`. -/
theorem binary_val_above (x : F) (n : ℕ) (X : ℕ → F)
    (h1 : x ≤ X (n - 1)) : x ≤ X (binary_val x n X) := by
  unfold binary_val
  split
  · exact le_of_lt (by assumption)
  · split
    · exact h1
    · exact bvLoop_above x X 0 (n - 1) h1

/-- The `while(kshi-kslo > 2)` bracket-shrinking loop of `binary_max`
(lines 408-420).  The state carries the bracket and the two objective values
`w1`, `w2` computed at the most recent midpoints, exactly as the C++ locals
do (they are read again after the loop). -/
def bmLoop (w : ℕ → F) (kslo kshi : ℕ) (w1 w2 : F) : ℕ × ℕ × F × F :=
  if 2 < kshi - kslo then
    let ksmid1 := (kslo + kshi) / 2
    let ksmid2 := ksmid1 + 1
    let w1n := w ksmid1
    let w2n := w ksmid2
    if w2n > w1n then bmLoop w ksmid1 kshi w1n w2n
    else bmLoop w kslo ksmid2 w1n w2n
  else (kslo, kshi, w1, w2)
termination_by kshi - kslo
decreasing_by
  · omega
  · omega

/-- The body of `binary_max` over an arbitrary objective `w` evaluated at
bracket offsets (the C++ evaluates the same Bellman objective expression at
every probe): the three exit cases of the source (`nksub > 3`, `== 3`,
`<= 2`), with the loop state read back after the `while`.  The initial
`w1`, `w2` passed to the loop are arbitrary (they are uninitialized in the
C++ and the loop always overwrites them when `nksub > 3`). -/
def bmaxCore (w : ℕ → F) (klo nksub : ℕ) : F × ℕ :=
  if 3 < nksub then
    let s := bmLoop w 0 (nksub - 1) 0 0
    let kslo := s.1
    let kshi := s.2.1
    let w1 := s.2.2.1
    let w2 := s.2.2.2
    if w2 > w1 then
      let w1b := w kshi
      if w2 > w1b then (w2, klo + kslo + 1) else (w1b, klo + kshi)
    else
      let w2b := w kslo
      if w2b > w1 then (w2b, klo + kslo) else (w1, klo + kslo + 1)
  else if nksub = 3 then
    let w1 := w 0
    let w2 := w 1
    let w3 := w 2
    let p1 : F × ℕ := (w1, klo)
    let p2 : F × ℕ := if w2 > p1.1 then (w2, klo + 1) else p1
    if w3 > p2.1 then (w3, klo + 2) else p2
  else
    let w1 := w 0
    let w2 := w (nksub - 1)
    if w2 > w1 then (w2, klo + (nksub - 1)) else (w1, klo)

/-- `binary_max` (`src/Thrust-GPU/functors.hpp`, lines 390-476): bisection
maximization of the Bellman objective under the concavity assumption. -/
def binary_max (R : RealOps F) (klo nksub nk nz : ℕ) (ydepK eta beta : F)
    (K P V0 : ℕ → F) : F × ℕ :=
  bmaxCore (fun l => crra R eta (ydepK - K (klo + l)) + beta * expSum nz nk P V0 l)
    klo nksub

/-- Row index `ix = hx % nk` of a flat state index (line 235). -/
def stateIx (nk hx : ℕ) : ℕ := hx % nk

/-- Column index `jx = (hx - ix)/nk` of a flat state index (line 236). -/
def stateJx (nk hx : ℕ) : ℕ := (hx - hx % nk) / nk

theorem stateJx_eq (nk hx : ℕ) : stateJx nk hx = hx / nk := by
  unfold stateJx
  rcases Nat.eq_zero_or_pos nk with h | h
  · simp [h]
  · have hmd := Nat.mod_add_div hx nk
    have hsub : hx - hx % nk = nk * (hx / nk) := by omega
    rw [hsub, Nat.mul_div_cancel_left _ h]

theorem state_write_offset (nk hx : ℕ) : stateIx nk hx + stateJx nk hx * nk = hx := by
  rw [stateJx_eq]
  unfold stateIx
  rcases Nat.eq_zero_or_pos nk with h | h
  · simp [h]
  · have := Nat.mod_add_div hx nk
    have : hx / nk * nk = nk * (hx / nk) := Nat.mul_comm _ _
    omega

/-- Output plus undepreciated capital, `ydepK = Z[jx]*pow(K[ix],alpha) +
(1-delta)*K[ix]` (line 239). -/
def ydepKval (R : RealOps F) (nk : ℕ) (alpha delta : F) (K Z : ℕ → F) (hx : ℕ) : F :=
  Z (stateJx nk hx) * R.pow (K (stateIx nk hx)) alpha + (1 - delta) * K (stateIx nk hx)

/-- The feasible upper index of `vfStep` (lines 246-247): the Feasibility
Locator result, decremented when the located grid point exceeds `ydepK`.
Modelled in `ℤ` because the C++ `int` can reach `-1`. -/
def feasibleKhi (R : RealOps F) (nk : ℕ) (alpha delta : F) (K Z : ℕ → F) (hx : ℕ) : ℤ :=
  let ydepK := ydepKval R nk alpha delta K Z hx
  let k0 := binary_val ydepK nk K
  if K k0 > ydepK then (k0 : ℤ) - 1 else (k0 : ℤ)

/-- The non-Howard cell computation of `vfStep` (lines 242-258): bracket the
feasible choices and run the selected maximizer with the shifted pointers
`&P[0]+jx` and `&V0[0]+klo` (`klo = 0`).  Returns the pair written to
`(V[ix+jx*nk], G[ix+jx*nk])`. -/
def bellmanCell (R : RealOps F) (nk nz : ℕ) (eta beta alpha delta : F)
    (maxtype : Char) (K Z P V0 : ℕ → F) (hx : ℕ) : F × ℕ :=
  let jx := stateJx nk hx
  let ydepK := ydepKval R nk alpha delta K Z hx
  let khi := feasibleKhi R nk alpha delta K Z hx
  let nksub := (khi - 0 + 1).toNat
  if maxtype = 'g' then
    grid_max R 0 nksub nk nz ydepK eta beta K (fun t => P (jx + t)) V0
  else
    binary_max R 0 nksub nk nz ydepK eta beta K (fun t => P (jx + t)) V0

/-- The Howard-branch cell computation of `vfStep` (lines 261-264): iterate
the Bellman formula at the stored policy index without maximizing. -/
def howardCell (R : RealOps F) (nk nz : ℕ) (eta beta alpha delta : F)
    (K Z P V0 : ℕ → F) (G : ℕ → ℕ) (hx : ℕ) : F :=
  let ix := stateIx nk hx
  let jx := stateJx nk hx
  let ydepK := ydepKval R nk alpha delta K Z hx
  let Exp := ∑ m ∈ Finset.range nz, P (jx + m * nz) * V0 (G (ix + jx * nk) + m * nk)
  crra R eta (ydepK - K (G (ix + jx * nk))) + beta * Exp

/-- One invocation of the `vfStep` functor at flat state `hx`
(lines 230-266), as a transformer of the `(V, G)` output buffers.  On
non-Howard passes with a recognized `maxtype` it writes the maximizer pair
to cell `ix + jx*nk`; on Howard passes it writes only `V` there; with an
unrecognized `maxtype` the C++ writes nothing. -/
def vfStepApply (R : RealOps F) (nk nz : ℕ) (eta beta alpha delta : F)
    (maxtype : Char) (howard : Bool) (K Z P V0 : ℕ → F) (hx : ℕ)
    (VG : (ℕ → F) × (ℕ → ℕ)) : (ℕ → F) × (ℕ → ℕ) :=
  let ix := stateIx nk hx
  let jx := stateJx nk hx
  if howard = false then
    if maxtype = 'g' ∨ maxtype = 'b' then
      let r := bellmanCell R nk nz eta beta alpha delta maxtype K Z P V0 hx
      (Function.update VG.1 (ix + jx * nk) r.1, Function.update VG.2 (ix + jx * nk) r.2)
    else VG
  else
    (Function.update VG.1 (ix + jx * nk)
      (howardCell R nk nz eta beta alpha delta K Z P V0 VG.2 hx), VG.2)

/-- Dispatch of `vfStep` over a list of flat state indices (the
`thrust::for_each` over `0..nk*nz-1` of the driver, with the visit order
left abstract). -/
def vfRun (R : RealOps F) (nk nz : ℕ) (eta beta alpha delta : F)
    (maxtype : Char) (howard : Bool) (K Z P V0 : ℕ → F) (L : List ℕ)
    (VG : (ℕ → F) × (ℕ → ℕ)) : (ℕ → F) × (ℕ → ℕ) :=
  L.foldl (fun s hx => vfStepApply R nk nz eta beta alpha delta maxtype howard K Z P V0 hx s) VG

/-- The Bellman objective at state `hx` and candidate next-capital index `l`,
`u(ydepK - K[l]) + beta * sum_m P[jx + m*nz] * V0[l + m*nk]`, exactly as the
maximizers evaluate it through their shifted pointers. -/
def bellmanObj (R : RealOps F) (nk nz : ℕ) (eta beta alpha delta : F)
    (K Z P V0 : ℕ → F) (hx l : ℕ) : F :=
  let jx := stateJx nk hx
  let ydepK := ydepKval R nk alpha delta K Z hx
  crra R eta (ydepK - K l) + beta * ∑ m ∈ Finset.range nz, P (jx + m * nz) * V0 (l + m * nk)

/-- The bracket size `nksub = khi - klo + 1` of `vfStep` (line 248), with
`klo = 0`, clamped to `ℕ` for the loop bounds. -/
def vfNksub (R : RealOps F) (nk : ℕ) (alpha delta : F) (K Z : ℕ → F) (hx : ℕ) : ℕ :=
  (feasibleKhi R nk alpha delta K Z hx - 0 + 1).toNat

theorem bellmanCell_grid (R : RealOps F) (nk nz : ℕ) (eta beta alpha delta : F)
    (K Z P V0 : ℕ → F) (hx : ℕ) :
    bellmanCell R nk nz eta beta alpha delta 'g' K Z P V0 hx
      = grid_max R 0 (vfNksub R nk alpha delta K Z hx) nk nz
          (ydepKval R nk alpha delta K Z hx) eta beta K
          (fun t => P (stateJx nk hx + t)) V0 := by
  unfold bellmanCell vfNksub
  simp

theorem grid_w_eq_obj (R : RealOps F) (nk nz : ℕ) (eta beta alpha delta : F)
    (K Z P V0 : ℕ → F) (hx : ℕ) :
    (fun l => crra R eta (ydepKval R nk alpha delta K Z hx - K (0 + l))
        + beta * expSum nz nk (fun t => P (stateJx nk hx + t)) V0 l)
      = bellmanObj R nk nz eta beta alpha delta K Z P V0 hx := by
  funext l
  simp [bellmanObj, expSum]

theorem vfStepApply_grid (R : RealOps F) (nk nz : ℕ) (eta beta alpha delta : F)
    (K Z P V0 : ℕ → F) (hx : ℕ) (V : ℕ → F) (G : ℕ → ℕ) :
    vfStepApply R nk nz eta beta alpha delta 'g' false K Z P V0 hx (V, G)
      = (Function.update V hx
           (bellmanCell R nk nz eta beta alpha delta 'g' K Z P V0 hx).1,
         Function.update G hx
           (bellmanCell R nk nz eta beta alpha delta 'g' K Z P V0 hx).2) := by
  unfold vfStepApply
  simp [state_write_offset]

theorem vfStepApply_howard (R : RealOps F) (nk nz : ℕ) (eta beta alpha delta : F)
    (maxtype : Char) (K Z P V0 : ℕ → F) (hx : ℕ) (V : ℕ → F) (G : ℕ → ℕ) :
    vfStepApply R nk nz eta beta alpha delta maxtype true K Z P V0 hx (V, G)
      = (Function.update V hx
           (howardCell R nk nz eta beta alpha delta K Z P V0 G hx), G) := by
  unfold vfStepApply
  simp [state_write_offset]

/-- C7: under a monotone capital grid with `K 0` affordable, the bracket
upper bound `khi` of `vfStep` is an index of the grid and every candidate up
to it keeps consumption non-negative. -/
theorem c7_feasible_bracket (R : RealOps F) (nk : ℕ) (alpha delta : F)
    (K Z : ℕ → F) (hx : ℕ) (hn : 1 ≤ nk)
    (hmono : ∀ i j, i < j → j < nk → K i < K j)
    (hfeas : K 0 ≤ ydepKval R nk alpha delta K Z hx) :
    0 ≤ feasibleKhi R nk alpha delta K Z hx ∧
      feasibleKhi R nk alpha delta K Z hx ≤ (nk : ℤ) - 1 ∧
      ∀ l : ℕ, (l : ℤ) ≤ feasibleKhi R nk alpha delta K Z hx →
        K l ≤ ydepKval R nk alpha delta K Z hx ∧
          0 ≤ ydepKval R nk alpha delta K Z hx - K l := by
  have hweak : ∀ i j, i ≤ j → j < nk → K i ≤ K j := by
    intro i j hij hj
    rcases Nat.lt_or_ge i j with h | h
    · exact le_of_lt (hmono i j h hj)
    · have : i = j := by omega
      rw [this]
  set yd := ydepKval R nk alpha delta K Z hx with hyd
  have hk0lt : binary_val yd nk K < nk := binary_val_lt yd nk K hn
  have hbelow : ∀ i, i < binary_val yd nk K → K i ≤ yd :=
    binary_val_below yd nk K hn hweak hfeas
  have hkhi : feasibleKhi R nk alpha delta K Z hx
      = if K (binary_val yd nk K) > yd
        then (binary_val yd nk K : ℤ) - 1 else (binary_val yd nk K : ℤ) := rfl
  rw [hkhi]
  by_cases hc : K (binary_val yd nk K) > yd
  · -- the located point exceeds ydepK: khi = k0 - 1
    rw [if_pos hc]
    have hk0pos : 1 ≤ binary_val yd nk K := by
      by_contra hcon
      have h0 : binary_val yd nk K = 0 := by omega
      rw [h0] at hc
      exact absurd hfeas (not_le_of_lt hc)
    refine ⟨by omega, by omega, ?_⟩
    intro l hl
    have : l < binary_val yd nk K := by omega
    exact ⟨hbelow l this, by linarith [hbelow l this]⟩
  · -- K[k0] <= ydepK: khi = k0
    rw [if_neg hc]
    refine ⟨by omega, by omega, ?_⟩
    intro l hl
    have hle : K l ≤ yd := by
      rcases Nat.lt_or_ge l (binary_val yd nk K) with h | h
      · exact hbelow l h
      · have : l = binary_val yd nk K := by omega
        rw [this]
        exact le_of_not_lt hc
    exact ⟨hle, by linarith⟩

/-- C7 witness at a concrete grid. -/
theorem c7_feasible_bracket_witness :
    0 ≤ feasibleKhi (RealOps.mk id id id id (fun a _ => a)) 3 (1/2) (1/2)
        (fun i => (i + 1 : ℚ)) (fun _ => (1 : ℚ)) 0 ∧
      feasibleKhi (RealOps.mk id id id id (fun a _ => a)) 3 (1/2) (1/2)
        (fun i => (i + 1 : ℚ)) (fun _ => (1 : ℚ)) 0 ≤ (3 : ℤ) - 1 := by
  have h := c7_feasible_bracket (RealOps.mk id id id id (fun a _ => a)) 3 (1/2) (1/2)
    (fun i => (i + 1 : ℚ)) (fun _ => (1 : ℚ)) 0 (by omega)
    (by
      intro i j hij hj
      have : (i : ℚ) < j := by exact_mod_cast hij
      simpa using this)
    (by norm_num [ydepKval, stateIx, stateJx])
  exact ⟨h.1, h.2.1⟩

/-- C3: on a full-maximization grid-search pass, `vfStep` writes to `V[hx]`
the maximum of the Bellman objective over the feasible bracket and to
`G[hx]` a feasible index attaining it. -/
theorem c3_grid_search_max (R : RealOps F) (nk nz : ℕ) (eta beta alpha delta : F)
    (K Z P V0 : ℕ → F) (hx : ℕ) (V : ℕ → F) (G : ℕ → ℕ) (hn : 1 ≤ nk)
    (hmono : ∀ i j, i < j → j < nk → K i < K j)
    (hfeas : K 0 ≤ ydepKval R nk alpha delta K Z hx) :
    1 ≤ vfNksub R nk alpha delta K Z hx ∧
      (∀ l, l < vfNksub R nk alpha delta K Z hx →
        bellmanObj R nk nz eta beta alpha delta K Z P V0 hx l ≤
          (vfStepApply R nk nz eta beta alpha delta 'g' false K Z P V0 hx (V, G)).1 hx) ∧
      (vfStepApply R nk nz eta beta alpha delta 'g' false K Z P V0 hx (V, G)).2 hx
        < vfNksub R nk alpha delta K Z hx ∧
      bellmanObj R nk nz eta beta alpha delta K Z P V0 hx
          ((vfStepApply R nk nz eta beta alpha delta 'g' false K Z P V0 hx (V, G)).2 hx)
        = (vfStepApply R nk nz eta beta alpha delta 'g' false K Z P V0 hx (V, G)).1 hx := by
  have hkhi := (c7_feasible_bracket R nk alpha delta K Z hx hn hmono hfeas).1
  have hnks : 1 ≤ vfNksub R nk alpha delta K Z hx := by
    unfold vfNksub
    omega
  rw [vfStepApply_grid, bellmanCell_grid]
  simp only [Function.update_same]
  rw [grid_max]
  simp only []
  rw [grid_w_eq_obj R nk nz eta beta alpha delta K Z P V0 hx]
  obtain ⟨hs1, hs2, hs3⟩ :=
    scanAux_spec (bellmanObj R nk nz eta beta alpha delta K Z P V0 hx)
      (vfNksub R nk alpha delta K Z hx - 1)
  refine ⟨hnks, ?_, ?_, ?_⟩
  · intro l hl
    exact hs3 l (by omega)
  · simp only [Nat.zero_add]
    omega
  · simp only [Nat.zero_add]
    exact hs2

/-- C3 witness at a concrete configuration. -/
theorem c3_grid_search_max_witness :
    1 ≤ vfNksub (RealOps.mk id id id id (fun a _ => a)) 3 (1/2) (1/2)
        (fun i => (i + 1 : ℚ)) (fun _ => (1 : ℚ)) 0 := by
  have h := c3_grid_search_max (RealOps.mk id id id id (fun a _ => a)) 3 1
    (0 : ℚ) (1/2) (1/2) (1/2) (fun i => (i + 1 : ℚ)) (fun _ => (1 : ℚ))
    (fun _ => (1 : ℚ)) (fun _ => (0 : ℚ)) 0 (fun _ => (0 : ℚ)) (fun _ => 0)
    (by omega)
    (by
      intro i j hij hj
      have : (i : ℚ) < j := by exact_mod_cast hij
      simpa using this)
    (by norm_num [ydepKval, stateIx, stateJx])
  exact h.1

/-- C5: if the Howard branch of `vfStep` runs with a policy buffer holding,
at the current state, exactly the argmax the grid maximizer just produced
from the same `V0`, it writes the very value the maximizer produced. -/
theorem c5_howard_consistency (R : RealOps F) (nk nz : ℕ) (eta beta alpha delta : F)
    (maxtype : Char) (K Z P V0 : ℕ → F) (hx : ℕ) (V V2 : ℕ → F) (G G2 : ℕ → ℕ)
    (hG : G hx = (bellmanCell R nk nz eta beta alpha delta 'g' K Z P V0 hx).2) :
    (vfStepApply R nk nz eta beta alpha delta maxtype true K Z P V0 hx (V, G)).1 hx
      = (vfStepApply R nk nz eta beta alpha delta 'g' false K Z P V0 hx (V2, G2)).1 hx := by
  rw [vfStepApply_howard, vfStepApply_grid]
  simp only [Function.update_same]
  have h1 : howardCell R nk nz eta beta alpha delta K Z P V0 G hx
      = bellmanObj R nk nz eta beta alpha delta K Z P V0 hx
          (G (stateIx nk hx + stateJx nk hx * nk)) := rfl
  rw [h1, state_write_offset, hG, bellmanCell_grid, grid_max]
  simp only []
  rw [grid_w_eq_obj R nk nz eta beta alpha delta K Z P V0 hx]
  simp only [Nat.zero_add]
  exact (scanAux_spec (bellmanObj R nk nz eta beta alpha delta K Z P V0 hx)
    (vfNksub R nk alpha delta K Z hx - 1)).2.1

/-- C5 witness at a concrete configuration. -/
theorem c5_howard_consistency_witness :
    (vfStepApply (RealOps.mk id id id id (fun a _ => a)) 2 1 0 1 (1/2) (1/2) 'g' true
        (fun i => (i + 1 : ℚ)) (fun _ => (1 : ℚ)) (fun _ => (1 : ℚ)) (fun _ => (0 : ℚ)) 0
        ((fun _ => (0 : ℚ)),
         (fun _ => (bellmanCell (RealOps.mk id id id id (fun a _ => a)) 2 1 0 1 (1/2) (1/2) 'g'
            (fun i => (i + 1 : ℚ)) (fun _ => (1 : ℚ)) (fun _ => (1 : ℚ))
            (fun _ => (0 : ℚ)) 0).2))).1 0
      = (vfStepApply (RealOps.mk id id id id (fun a _ => a)) 2 1 0 1 (1/2) (1/2) 'g' false
        (fun i => (i + 1 : ℚ)) (fun _ => (1 : ℚ)) (fun _ => (1 : ℚ)) (fun _ => (0 : ℚ)) 0
        ((fun _ => (0 : ℚ)), (fun _ => 0))).1 0 :=
  c5_howard_consistency (RealOps.mk id id id id (fun a _ => a)) 2 1 0 1 (1/2) (1/2) 'g'
    (fun i => (i + 1 : ℚ)) (fun _ => (1 : ℚ)) (fun _ => (1 : ℚ)) (fun _ => (0 : ℚ)) 0
    (fun _ => (0 : ℚ)) (fun _ => (0 : ℚ)) _ (fun _ => 0) rfl

/-- C2: on the strictly increasing grid `X = [5,7]` with `x = X[0] = 5`,
`binary_val` returns index `1`, although the smallest index `i` with
`X[i] >= x` is `0` (the left-boundary exact tie is missed because the loop
never evaluates `X[ilo]`). -/
theorem c2_left_tie_returns_one :
    binary_val (5 : ℚ) 2 (fun i => if i = 0 then (5 : ℚ) else 7) = 1 ∧
      (5 : ℚ) ≤ (fun i => if i = 0 then (5 : ℚ) else 7) 0 ∧
      (fun i => if i = 0 then (5 : ℚ) else 7) 0
        < (fun i => if i = 0 then (5 : ℚ) else 7) 1 := by
  refine ⟨?_, by norm_num, by norm_num⟩
  simp [binary_val, bvLoop]

theorem vfRun_howard_char (R : RealOps F) (nk nz : ℕ) (eta beta alpha delta : F)
    (maxtype : Char) (K Z P V0 : ℕ → F) :
    ∀ (L : List ℕ) (V : ℕ → F) (G : ℕ → ℕ),
      vfRun R nk nz eta beta alpha delta maxtype true K Z P V0 L (V, G)
        = (fun y => if y ∈ L then howardCell R nk nz eta beta alpha delta K Z P V0 G y else V y,
           G) := by
  intro L
  induction L with
  | nil =>
    intro V G
    simp [vfRun]
  | cons a L ih =>
    intro V G
    have hstep : vfRun R nk nz eta beta alpha delta maxtype true K Z P V0 (a :: L) (V, G)
        = vfRun R nk nz eta beta alpha delta maxtype true K Z P V0 L
            (vfStepApply R nk nz eta beta alpha delta maxtype true K Z P V0 a (V, G)) := rfl
    rw [hstep, vfStepApply_howard, ih]
    refine Prod.ext ?_ rfl
    funext y
    by_cases hyL : y ∈ L
    · simp [hyL]
    · by_cases hya : y = a
      · subst hya
        simp [hyL]
      · simp [hyL, hya, Function.update_noteq hya]

theorem vfRun_bellman_char (R : RealOps F) (nk nz : ℕ) (eta beta alpha delta : F)
    (maxtype : Char) (K Z P V0 : ℕ → F) (hmt : maxtype = 'g' ∨ maxtype = 'b') :
    ∀ (L : List ℕ) (V : ℕ → F) (G : ℕ → ℕ),
      vfRun R nk nz eta beta alpha delta maxtype false K Z P V0 L (V, G)
        = (fun y => if y ∈ L
              then (bellmanCell R nk nz eta beta alpha delta maxtype K Z P V0 y).1 else V y,
           fun y => if y ∈ L
              then (bellmanCell R nk nz eta beta alpha delta maxtype K Z P V0 y).2 else G y) := by
  intro L
  induction L with
  | nil =>
    intro V G
    simp [vfRun]
  | cons a L ih =>
    intro V G
    have hstep : vfRun R nk nz eta beta alpha delta maxtype false K Z P V0 (a :: L) (V, G)
        = vfRun R nk nz eta beta alpha delta maxtype false K Z P V0 L
            (vfStepApply R nk nz eta beta alpha delta maxtype false K Z P V0 a (V, G)) := rfl
    have happ : vfStepApply R nk nz eta beta alpha delta maxtype false K Z P V0 a (V, G)
        = (Function.update V a
             (bellmanCell R nk nz eta beta alpha delta maxtype K Z P V0 a).1,
           Function.update G a
             (bellmanCell R nk nz eta beta alpha delta maxtype K Z P V0 a).2) := by
      unfold vfStepApply
      simp [state_write_offset, hmt]
    rw [hstep, happ, ih]
    refine Prod.ext ?_ ?_ <;> funext y <;> by_cases hyL : y ∈ L
    · simp [hyL]
    · by_cases hya : y = a
      · subst hya
        simp [hyL]
      · simp [hyL, hya, Function.update_noteq hya]
    · simp [hyL]
    · by_cases hya : y = a
      · subst hya
        simp [hyL]
      · simp [hyL, hya, Function.update_noteq hya]

/-- C9: one `vfStep` invocation writes only cell `hx` (`V[hx]`, and `G[hx]`
only on full-maximization passes), the written values are those of the
per-cell functions of the read-only inputs, and dispatching any permutation
of a list of states produces identical buffers. -/
theorem c9_frame_order (R : RealOps F) (nk nz : ℕ) (eta beta alpha delta : F)
    (maxtype : Char) (howard : Bool) (K Z P V0 : ℕ → F) (hx : ℕ)
    (V : ℕ → F) (G : ℕ → ℕ) :
    (∀ y, y ≠ hx →
      (vfStepApply R nk nz eta beta alpha delta maxtype howard K Z P V0 hx (V, G)).1 y = V y ∧
      (vfStepApply R nk nz eta beta alpha delta maxtype howard K Z P V0 hx (V, G)).2 y = G y) ∧
    (howard = true →
      (vfStepApply R nk nz eta beta alpha delta maxtype howard K Z P V0 hx (V, G)).2 = G ∧
      (vfStepApply R nk nz eta beta alpha delta maxtype howard K Z P V0 hx (V, G)).1 hx
        = howardCell R nk nz eta beta alpha delta K Z P V0 G hx) ∧
    (howard = false → maxtype = 'g' ∨ maxtype = 'b' →
      (vfStepApply R nk nz eta beta alpha delta maxtype howard K Z P V0 hx (V, G)).1 hx
        = (bellmanCell R nk nz eta beta alpha delta maxtype K Z P V0 hx).1 ∧
      (vfStepApply R nk nz eta beta alpha delta maxtype howard K Z P V0 hx (V, G)).2 hx
        = (bellmanCell R nk nz eta beta alpha delta maxtype K Z P V0 hx).2) ∧
    (∀ L1 L2 : List ℕ, L1.Perm L2 →
      vfRun R nk nz eta beta alpha delta maxtype howard K Z P V0 L1 (V, G)
        = vfRun R nk nz eta beta alpha delta maxtype howard K Z P V0 L2 (V, G)) := by
  have hofs := state_write_offset nk hx
  refine ⟨?_, ?_, ?_, ?_⟩
  · intro y hy
    unfold vfStepApply
    rcases howard with _ | _
    · simp only [Bool.false_eq_true]
      by_cases hmt : maxtype = 'g' ∨ maxtype = 'b'
      · simp only [if_pos hmt, if_pos rfl]
        rw [hofs]
        exact ⟨Function.update_noteq hy _ _, Function.update_noteq hy _ _⟩
      · simp [hmt]
    · simp only []
      rw [hofs]
      exact ⟨Function.update_noteq hy _ _, rfl⟩
  · intro hh
    subst hh
    rw [vfStepApply_howard]
    exact ⟨rfl, Function.update_same _ _ _⟩
  · intro hh hmt
    subst hh
    have happ : vfStepApply R nk nz eta beta alpha delta maxtype false K Z P V0 hx (V, G)
        = (Function.update V hx
             (bellmanCell R nk nz eta beta alpha delta maxtype K Z P V0 hx).1,
           Function.update G hx
             (bellmanCell R nk nz eta beta alpha delta maxtype K Z P V0 hx).2) := by
      unfold vfStepApply
      simp [state_write_offset, hmt]
    rw [happ]
    exact ⟨Function.update_same _ _ _, Function.update_same _ _ _⟩
  · intro L1 L2 hperm
    rcases howard with _ | _
    · by_cases hmt : maxtype = 'g' ∨ maxtype = 'b'
      · rw [vfRun_bellman_char R nk nz eta beta alpha delta maxtype K Z P V0 hmt,
          vfRun_bellman_char R nk nz eta beta alpha delta maxtype K Z P V0 hmt]
        refine Prod.ext ?_ ?_ <;> funext y <;>
          simp only [List.Perm.mem_iff hperm]
      · have hid : ∀ (L : List ℕ) (V : ℕ → F) (G : ℕ → ℕ),
            vfRun R nk nz eta beta alpha delta maxtype false K Z P V0 L (V, G) = (V, G) := by
          intro L
          induction L with
          | nil => intro V G; rfl
          | cons a L ih =>
            intro V G
            have hstep : vfRun R nk nz eta beta alpha delta maxtype false K Z P V0 (a :: L) (V, G)
                = vfRun R nk nz eta beta alpha delta maxtype false K Z P V0 L
                    (vfStepApply R nk nz eta beta alpha delta maxtype false K Z P V0 a (V, G)) := rfl
            have happ : vfStepApply R nk nz eta beta alpha delta maxtype false K Z P V0 a (V, G)
                = (V, G) := by
              unfold vfStepApply
              simp [hmt]
            rw [hstep, happ, ih]
        rw [hid, hid]
    · rw [vfRun_howard_char, vfRun_howard_char]
      refine Prod.ext ?_ rfl
      funext y
      simp only [List.Perm.mem_iff hperm]

/-- C9 witness at a concrete instance: the frame property at a cell other
than the written one, and order independence for a transposed dispatch. -/
theorem c9_frame_order_witness :
    (vfStepApply (RealOps.mk id id id id (fun a _ => a)) 2 1 0 1 (1/2) (1/2) 'g' false
        (fun i => (i + 1 : ℚ)) (fun _ => (1 : ℚ)) (fun _ => (1 : ℚ)) (fun _ => (0 : ℚ)) 0
        ((fun _ => (0 : ℚ)), (fun _ => 0))).1 1 = 0 ∧
      vfRun (RealOps.mk id id id id (fun a _ => a)) 2 1 0 1 (1/2) (1/2) 'g' false
          (fun i => (i + 1 : ℚ)) (fun _ => (1 : ℚ)) (fun _ => (1 : ℚ)) (fun _ => (0 : ℚ))
          [0, 1] ((fun _ => (0 : ℚ)), (fun _ => 0))
        = vfRun (RealOps.mk id id id id (fun a _ => a)) 2 1 0 1 (1/2) (1/2) 'g' false
          (fun i => (i + 1 : ℚ)) (fun _ => (1 : ℚ)) (fun _ => (1 : ℚ)) (fun _ => (0 : ℚ))
          [1, 0] ((fun _ => (0 : ℚ)), (fun _ => 0)) := by
  have h := c9_frame_order (RealOps.mk id id id id (fun a _ => a)) 2 1 (0 : ℚ) 1 (1/2) (1/2)
    'g' false (fun i => (i + 1 : ℚ)) (fun _ => (1 : ℚ)) (fun _ => (1 : ℚ)) (fun _ => (0 : ℚ)) 0
    (fun _ => (0 : ℚ)) (fun _ => 0)
  exact ⟨(h.1 1 (by decide)).1, h.2.2.2 [0, 1] [1, 0] (List.Perm.swap 1 0 [])⟩

/-- The log-grid step recomputed by the `transMat` functor (line 99),
`(log(Z[nz-1]) - log(Z[0]))/(nz-1)`. -/
def tmZstep (R : RealOps F) (nz : ℕ) (Z : ℕ → F) : F :=
  (R.log (Z (nz - 1)) - R.log (Z 0)) / ((nz - 1 : ℕ) : F)

/-- The first-column value written by `transMat` (lines 102-103),
`0.5 + 0.5*erf(normarg1/pow(2,0.5))`. -/
def tauchenCdf0 (R : RealOps F) (nz : ℕ) (mu sigma rho : F) (Z : ℕ → F) (ix : ℕ) : F :=
  1/2 + 1/2 * R.erf (((R.log (Z 0) - mu - rho * R.log (Z ix)) / sigma
    + 1/2 * tmZstep R nz Z / sigma) / R.pow 2 (1/2))

/-- The interior-column value written by `transMat` (lines 106-108), a
difference of two normal-CDF evaluations. -/
def tauchenMid (R : RealOps F) (nz : ℕ) (mu sigma rho : F) (Z : ℕ → F) (ix jx : ℕ) : F :=
  1/2 * R.erf (((R.log (Z jx) - mu - rho * R.log (Z ix)) / sigma
      + 1/2 * tmZstep R nz Z / sigma) / R.pow 2 (1/2))
    - 1/2 * R.erf (((R.log (Z jx) - mu - rho * R.log (Z ix)) / sigma
      - 1/2 * tmZstep R nz Z / sigma) / R.pow 2 (1/2))

/-- The closed form of the entry the `transMat` functor produces for origin
`ix` and destination `jx`: the first column is the lower CDF, the last
column is one minus the rest of the row, interior columns are CDF
differences. -/
def tauchenEntry (R : RealOps F) (nz : ℕ) (mu sigma rho : F) (Z : ℕ → F) (ix jx : ℕ) : F :=
  if jx = 0 then tauchenCdf0 R nz mu sigma rho Z ix
  else if jx = nz - 1 then
    1 - tauchenCdf0 R nz mu sigma rho Z ix
      - ∑ t ∈ Finset.Ico 1 (nz - 1), tauchenMid R nz mu sigma rho Z ix t
  else tauchenMid R nz mu sigma rho Z ix jx

/-- The interior loop body of the `transMat` functor (lines 105-110): write
the CDF difference at `P[ix+jx*nz]` and subtract it from the buffered last
column `P[ix+nz*(nz-1)]`. -/
def tmBody (R : RealOps F) (nz : ℕ) (mu sigma rho : F) (Z : ℕ → F) (ix : ℕ)
    (Q : ℕ → F) (jx : ℕ) : ℕ → F :=
  let Q1 := Function.update Q (ix + jx * nz) (tauchenMid R nz mu sigma rho Z ix jx)
  Function.update Q1 (ix + nz * (nz - 1)) (Q1 (ix + nz * (nz - 1)) - Q1 (ix + jx * nz))

/-- One invocation of the `transMat` functor at origin row `ix`
(`src/Thrust-GPU/functors.hpp`, lines 96-111): write the first column at
`P[ix]`, seed the last column at `P[ix+nz*(nz-1)]` with its complement, then
run the interior loop `jx = 1..nz-2`. -/
def transMatApply (R : RealOps F) (nz : ℕ) (mu sigma rho : F) (Z : ℕ → F) (ix : ℕ)
    (P : ℕ → F) : ℕ → F :=
  let P1 := Function.update P ix (tauchenCdf0 R nz mu sigma rho Z ix)
  let P2 := Function.update P1 (ix + nz * (nz - 1)) (1 - P1 ix)
  (List.range' 1 (nz - 2)).foldl (tmBody R nz mu sigma rho Z ix) P2

/-- The full transition-matrix construction: the functor dispatched over all
origin rows `ix = 0..nz-1`. -/
def transMatAll (R : RealOps F) (nz : ℕ) (mu sigma rho : F) (Z P : ℕ → F) : ℕ → F :=
  (List.range nz).foldl (fun Q ix => transMatApply R nz mu sigma rho Z ix Q) P

theorem offNe (ix a b nz : ℕ) (hnz : 0 < nz) (hab : a ≠ b) :
    ix + a * nz ≠ ix + b * nz := by
  intro h
  have hm : a * nz = b * nz := by omega
  exact hab (Nat.eq_of_mul_eq_mul_right hnz hm)

theorem rowcol_eq (nz i r j' j : ℕ) (hi : i < nz) (hr : r < nz)
    (h : r + j' * nz = i + j * nz) : r = i ∧ j' = j := by
  have h1 : (r + j' * nz) % nz = r := by
    rw [Nat.add_mul_mod_self_right, Nat.mod_eq_of_lt hr]
  have h2 : (i + j * nz) % nz = i := by
    rw [Nat.add_mul_mod_self_right, Nat.mod_eq_of_lt hi]
  have hri : r = i := by rw [← h1, h, h2]
  refine ⟨hri, ?_⟩
  subst hri
  have hm : j' * nz = j * nz := by omega
  exact Nat.eq_of_mul_eq_mul_right (by omega) hm

theorem tmFold_last (R : RealOps F) (nz : ℕ) (mu sigma rho : F) (Z : ℕ → F) (ix : ℕ)
    (hnz : 2 ≤ nz) :
    ∀ m, m ≤ nz - 2 → ∀ Q : ℕ → F,
      ((List.range' 1 m).foldl (tmBody R nz mu sigma rho Z ix) Q) (ix + nz * (nz - 1))
        = Q (ix + nz * (nz - 1))
          - ∑ t ∈ Finset.Ico 1 (m + 1), tauchenMid R nz mu sigma rho Z ix t := by
  intro m
  induction m with
  | zero =>
    intro hm Q
    simp
  | succ m ih =>
    intro hm Q
    rw [range'_one_concat, List.foldl_append]
    simp only [List.foldl_cons, List.foldl_nil]
    have hne : ix + nz * (nz - 1) ≠ ix + (m + 1) * nz := by
      rw [Nat.mul_comm nz (nz - 1)]
      exact offNe ix (nz - 1) (m + 1) nz (by omega) (by omega)
    have hbody : ∀ Qm : ℕ → F,
        tmBody R nz mu sigma rho Z ix Qm (m + 1) (ix + nz * (nz - 1))
          = Qm (ix + nz * (nz - 1)) - tauchenMid R nz mu sigma rho Z ix (m + 1) := by
      intro Qm
      simp only [tmBody, Function.update_same]
      rw [Function.update_noteq hne]
    rw [hbody, ih (by omega) Q]
    conv_rhs => rw [Finset.sum_Ico_succ_top (show 1 ≤ m + 1 by omega)]
    ring

theorem tmFold_mid (R : RealOps F) (nz : ℕ) (mu sigma rho : F) (Z : ℕ → F) (ix : ℕ)
    (hnz : 2 ≤ nz) :
    ∀ m, m ≤ nz - 2 → ∀ Q : ℕ → F, ∀ t, 1 ≤ t → t ≤ m →
      ((List.range' 1 m).foldl (tmBody R nz mu sigma rho Z ix) Q) (ix + t * nz)
        = tauchenMid R nz mu sigma rho Z ix t := by
  intro m
  induction m with
  | zero =>
    intro hm Q t ht1 ht2
    omega
  | succ m ih =>
    intro hm Q t ht1 ht2
    rw [range'_one_concat, List.foldl_append]
    have hlast : ix + t * nz ≠ ix + nz * (nz - 1) := by
      rw [Nat.mul_comm nz (nz - 1)]
      exact offNe ix t (nz - 1) nz (by omega) (by omega)
    simp only [List.foldl_cons, List.foldl_nil, tmBody]
    rw [Function.update_noteq hlast]
    by_cases hteq : t = m + 1
    · subst hteq
      rw [Function.update_same]
    · rw [Function.update_noteq (offNe ix t (m + 1) nz (by omega) hteq)]
      exact ih (by omega) Q t ht1 (by omega)

theorem tmFold_other (R : RealOps F) (nz : ℕ) (mu sigma rho : F) (Z : ℕ → F) (ix : ℕ) :
    ∀ m, ∀ Q : ℕ → F, ∀ o,
      (∀ t, 1 ≤ t → t ≤ m → o ≠ ix + t * nz) → o ≠ ix + nz * (nz - 1) →
      ((List.range' 1 m).foldl (tmBody R nz mu sigma rho Z ix) Q) o = Q o := by
  intro m
  induction m with
  | zero =>
    intro Q o hint hlast
    simp
  | succ m ih =>
    intro Q o hint hlast
    rw [range'_one_concat, List.foldl_append]
    simp only [List.foldl_cons, List.foldl_nil, tmBody]
    rw [Function.update_noteq hlast,
      Function.update_noteq (hint (m + 1) (by omega) (by omega))]
    exact ih Q o (fun t ht1 ht2 => hint t ht1 (by omega)) hlast

/-- Per-row write characterization of the `transMat` functor: the final value
at `P[ix + jx*nz]` is the Tauchen entry for origin `ix`, destination `jx`. -/
theorem transMatApply_entry (R : RealOps F) (nz : ℕ) (mu sigma rho : F) (Z : ℕ → F)
    (ix : ℕ) (P : ℕ → F) (hnz : 2 ≤ nz) (jx : ℕ) (hjx : jx < nz) :
    transMatApply R nz mu sigma rho Z ix P (ix + jx * nz)
      = tauchenEntry R nz mu sigma rho Z ix jx := by
  have hlastne : ix ≠ ix + nz * (nz - 1) := by
    have : 0 < nz * (nz - 1) := Nat.mul_pos (by omega) (by omega)
    omega
  simp only [transMatApply]
  by_cases hj0 : jx = 0
  · subst hj0
    simp only [Nat.zero_mul, Nat.add_zero]
    rw [tmFold_other R nz mu sigma rho Z ix (nz - 2) _ ix
        (fun t ht1 ht2 => by
          have : 0 < t * nz := Nat.mul_pos (by omega) (by omega)
          omega)
        hlastne]
    rw [Function.update_noteq hlastne, Function.update_same]
    unfold tauchenEntry
    rw [if_pos rfl]
  · by_cases hjlast : jx = nz - 1
    · subst hjlast
      have hoff : ix + (nz - 1) * nz = ix + nz * (nz - 1) := by
        rw [Nat.mul_comm]
      rw [hoff, tmFold_last R nz mu sigma rho Z ix hnz (nz - 2) (by omega)]
      rw [Function.update_same, Function.update_same]
      unfold tauchenEntry
      rw [if_neg hj0, if_pos rfl]
      have hm : nz - 2 + 1 = nz - 1 := by omega
      rw [hm]
    · rw [tmFold_mid R nz mu sigma rho Z ix hnz (nz - 2) (by omega) _ jx (by omega) (by omega)]
      unfold tauchenEntry
      rw [if_neg hj0, if_neg hjlast]

/-- The `transMat` functor at row `ix` leaves every offset outside
`{ix + j*nz : j < nz}` unchanged. -/
theorem transMatApply_other (R : RealOps F) (nz : ℕ) (mu sigma rho : F) (Z : ℕ → F)
    (ix : ℕ) (P : ℕ → F) (hnz : 2 ≤ nz) (o : ℕ)
    (ho : ∀ j, j < nz → o ≠ ix + j * nz) :
    transMatApply R nz mu sigma rho Z ix P o = P o := by
  have holast : o ≠ ix + nz * (nz - 1) := by
    rw [Nat.mul_comm nz (nz - 1)]
    exact ho (nz - 1) (by omega)
  have hoix : o ≠ ix := by
    have := ho 0 (by omega)
    simpa using this
  simp only [transMatApply]
  rw [tmFold_other R nz mu sigma rho Z ix (nz - 2) _ o
      (fun t ht1 ht2 => ho t (by omega)) holast]
  rw [Function.update_noteq holast, Function.update_noteq hoix]

theorem tmAll_untouched (R : RealOps F) (nz : ℕ) (mu sigma rho : F) (Z : ℕ → F)
    (hnz : 2 ≤ nz) :
    ∀ (Lr : List ℕ) (Q : ℕ → F) (o : ℕ),
      (∀ r ∈ Lr, ∀ j, j < nz → o ≠ r + j * nz) →
      (Lr.foldl (fun Q ix => transMatApply R nz mu sigma rho Z ix Q) Q) o = Q o := by
  intro Lr
  induction Lr with
  | nil =>
    intro Q o ho
    rfl
  | cons r Lr ih =>
    intro Q o ho
    simp only [List.foldl_cons]
    rw [ih _ o (fun r' hr' j hj => ho r' (List.mem_cons_of_mem r hr') j hj)]
    exact transMatApply_other R nz mu sigma rho Z r Q hnz o
      (fun j hj => ho r (List.mem_cons_self r Lr) j hj)

theorem tmAll_mem (R : RealOps F) (nz : ℕ) (mu sigma rho : F) (Z : ℕ → F)
    (hnz : 2 ≤ nz) :
    ∀ (Lr : List ℕ) (Q : ℕ → F) (i j : ℕ),
      (∀ r ∈ Lr, r < nz) → i < nz → j < nz → i ∈ Lr →
      (Lr.foldl (fun Q ix => transMatApply R nz mu sigma rho Z ix Q) Q) (i + j * nz)
        = tauchenEntry R nz mu sigma rho Z i j := by
  intro Lr
  induction Lr with
  | nil =>
    intro Q i j hr hi hj hmem
    simp at hmem
  | cons r Lr ih =>
    intro Q i j hr hi hj hmem
    simp only [List.foldl_cons]
    by_cases hiL : i ∈ Lr
    · exact ih _ i j (fun r' hr' => hr r' (List.mem_cons_of_mem r hr')) hi hj hiL
    · have hri : r = i := by
        rcases List.mem_cons.mp hmem with h | h
        · exact h.symm
        · exact absurd h hiL
      subst hri
      rw [tmAll_untouched R nz mu sigma rho Z hnz Lr _ (r + j * nz)
          (fun r' hr' j' hj' => by
            intro hcon
            have := rowcol_eq nz r r' j' j hi (hr r' (List.mem_cons_of_mem r hr')) hcon.symm
            exact hiL (this.1 ▸ hr'))]
      exact transMatApply_entry R nz mu sigma rho Z r Q hnz j hj

/-- Final-buffer characterization of the full transition-matrix build: the
entry for origin `i`, destination `j` sits at flat offset `i + j*nz`. -/
theorem transMatAll_entry (R : RealOps F) (nz : ℕ) (mu sigma rho : F) (Z P : ℕ → F)
    (hnz : 2 ≤ nz) (i j : ℕ) (hi : i < nz) (hj : j < nz) :
    transMatAll R nz mu sigma rho Z P (i + j * nz)
      = tauchenEntry R nz mu sigma rho Z i j := by
  unfold transMatAll
  exact tmAll_mem R nz mu sigma rho Z hnz (List.range nz) P i j
    (fun r hr => List.mem_range.mp hr) hi hj (List.mem_range.mpr hi)

/-- Row-stochasticity of the `transMat` functor output: every row of the
produced matrix sums to exactly one, because the last column is the
complement of the rest of the row. -/
theorem transMat_row_sum_one (R : RealOps F) (nz : ℕ) (mu sigma rho : F) (Z P : ℕ → F)
    (hnz : 2 ≤ nz) (i : ℕ) (hi : i < nz) :
    ∑ j ∈ Finset.range nz, transMatAll R nz mu sigma rho Z P (i + j * nz) = 1 := by
  have hcong : ∀ j ∈ Finset.range nz,
      transMatAll R nz mu sigma rho Z P (i + j * nz)
        = tauchenEntry R nz mu sigma rho Z i j := by
    intro j hj
    exact transMatAll_entry R nz mu sigma rho Z P hnz i j hi (List.mem_range.mp (by
      simpa using hj))
  rw [Finset.sum_congr rfl hcong]
  have key : ∀ f : ℕ → F, (∑ j ∈ Finset.range nz, f j)
      = f 0 + (∑ j ∈ Finset.Ico 1 (nz - 1), f j) + f (nz - 1) := by
    intro f
    have h1 : nz = (nz - 1) + 1 := by omega
    rw [Finset.range_eq_Ico, h1, Finset.sum_Ico_succ_top (by omega),
      Finset.sum_eq_sum_Ico_succ_bot (by omega)]
    norm_num
  rw [key]
  have hmid : ∀ j ∈ Finset.Ico 1 (nz - 1),
      tauchenEntry R nz mu sigma rho Z i j = tauchenMid R nz mu sigma rho Z i j := by
    intro j hj
    have hj' := Finset.mem_Ico.mp hj
    unfold tauchenEntry
    rw [if_neg (by omega), if_neg (by omega)]
  rw [Finset.sum_congr rfl hmid]
  have h0 : tauchenEntry R nz mu sigma rho Z i 0 = tauchenCdf0 R nz mu sigma rho Z i := by
    unfold tauchenEntry
    rw [if_pos rfl]
  have hlastv : tauchenEntry R nz mu sigma rho Z i (nz - 1)
      = 1 - tauchenCdf0 R nz mu sigma rho Z i
        - ∑ t ∈ Finset.Ico 1 (nz - 1), tauchenMid R nz mu sigma rho Z i t := by
    unfold tauchenEntry
    rw [if_neg (by omega), if_pos rfl]
  rw [h0, hlastv]
  ring

/-- A concrete computable instantiation of the abstract real operations,
used for witnesses and concrete evaluations over `ℚ`. -/
def idOps : RealOps ℚ := RealOps.mk id id id id (fun a _ => a)

/-- C6 (amended): the transition probability the Discretizer writes for the
move `j → z'` sits at flat offset `j + z'*nz`, and the expectation the
maximizers accumulate through the shifted pointer `&P[0]+jx` consumes
exactly those entries. -/
theorem c6_transition_indexing (R : RealOps F) (nz : ℕ) (mu sigma rho : F)
    (Z P : ℕ → F) (hnz : 2 ≤ nz) (j : ℕ) (hj : j < nz) :
    (∀ z', z' < nz → transMatAll R nz mu sigma rho Z P (j + z' * nz)
        = tauchenEntry R nz mu sigma rho Z j z') ∧
    ∀ (nk l : ℕ) (V0 : ℕ → F),
      expSum nz nk (fun t => transMatAll R nz mu sigma rho Z P (j + t)) V0 l
        = ∑ m ∈ Finset.range nz, tauchenEntry R nz mu sigma rho Z j m * V0 (l + m * nk) := by
  refine ⟨fun z' hz => transMatAll_entry R nz mu sigma rho Z P hnz j z' hj hz, ?_⟩
  intro nk l V0
  unfold expSum
  refine Finset.sum_congr rfl ?_
  intro m hm
  simp only []
  rw [transMatAll_entry R nz mu sigma rho Z P hnz j m hj (Finset.mem_range.mp hm)]

/-- C6 witness: the amended layout at a concrete configuration. -/
theorem c6_transition_indexing_witness :
    transMatAll idOps 2 0 1 (1/2) (fun i => (i : ℚ)) (fun _ => 0) (0 + 1 * 2)
      = tauchenEntry idOps 2 0 1 (1/2) (fun i => (i : ℚ)) 0 1 :=
  (c6_transition_indexing idOps 2 0 1 (1/2) (fun i => (i : ℚ)) (fun _ => 0)
    (by omega) 0 (by omega)).1 1 (by omega)

/-- C6 counterexample: with `nz = 3` and a concrete instantiation of the
real operations, the entry the Discretizer wrote as the probability of the
move `(j,z') = (1,0)` is `1/2`, but the array element at the claimed
row-major offset `j*nz + z' = 3` is `1/4` (it is the entry for `(0,1)`). -/
theorem c6_rowmajor_offset_false :
    transMatAll idOps 3 0 1 (1/2) (fun i => (i : ℚ)) (fun _ => 0) (1 * 3 + 0) = 1/4 ∧
      tauchenEntry idOps 3 0 1 (1/2) (fun i => (i : ℚ)) 1 0 = 1/2 ∧
      ((1 : ℚ)/4 ≠ 1/2) := by
  refine ⟨?_, ?_, by norm_num⟩
  · norm_num [transMatAll, transMatApply, tmBody, tauchenCdf0, tauchenMid, tmZstep,
      idOps, List.range, List.range', List.range.loop, Function.update]
  · norm_num [tauchenEntry, tauchenCdf0, tmZstep, idOps]

/-- `sigma_z` of `ar1` (`src/Thrust/ar1.cpp`, line 46),
`sigma/pow(1-pow(rho,2),0.5)`. -/
def ar1sigmaz (R : RealOps F) (rho sigma : F) : F :=
  sigma / R.pow (1 - R.pow rho 2) (1/2)

/-- `zmin` of `ar1` (lines 47-48), `mu/(1-rho) - lambda*sigma_z`. -/
def ar1zmin (R : RealOps F) (mu rho sigma lambda : F) : F :=
  mu / (1 - rho) - lambda * ar1sigmaz R rho sigma

/-- `zmax` of `ar1` (line 49). -/
def ar1zmax (R : RealOps F) (mu rho sigma lambda : F) : F :=
  mu / (1 - rho) + lambda * ar1sigmaz R rho sigma

/-- `zstep` of `ar1` (line 50). -/
def ar1zstep (R : RealOps F) (nz : ℕ) (mu rho sigma lambda : F) : F :=
  (ar1zmax R mu rho sigma lambda - ar1zmin R mu rho sigma lambda) / ((nz - 1 : ℕ) : F)

/-- The TFP grid written by `ar1` (line 51), `Z[ix] = exp(zmin + zstep*ix)`. -/
def ar1Z (R : RealOps F) (nz : ℕ) (mu rho sigma lambda : F) (Z : ℕ → F) : ℕ → F :=
  (List.range nz).foldl
    (fun Q ix => Function.update Q ix
      (R.exp (ar1zmin R mu rho sigma lambda + ar1zstep R nz mu rho sigma lambda * (ix : F)))) Z

/-- One origin-row iteration of the transition-matrix loop of `ar1`
(lines 55-65).  Note the first column is written at `P[ix*nz]` (line 57)
while the last and interior columns are written at `P[ix+nz*(nz-1)]` and
`P[ix+nz*jx]` (lines 58, 62-63). -/
def ar1Pbody (R : RealOps F) (nz : ℕ) (mu rho sigma lambda : F) (Zb : ℕ → F)
    (Q : ℕ → F) (ix : ℕ) : ℕ → F :=
  let zmin := ar1zmin R mu rho sigma lambda
  let zstep := ar1zstep R nz mu rho sigma lambda
  let Q1 := Function.update Q (ix * nz)
    (1/2 + 1/2 * R.erf (((zmin - mu - rho * R.log (Zb ix)) / sigma
      + 1/2 * zstep / sigma) / R.sqrt 2))
  let Q2 := Function.update Q1 (ix + nz * (nz - 1)) (1 - Q1 (ix * nz))
  (List.range' 1 (nz - 2)).foldl (fun Q jx =>
    let Q1 := Function.update Q (ix + nz * jx)
      (1/2 * R.erf (((R.log (Zb jx) - mu - rho * R.log (Zb ix)) / sigma
          + 1/2 * zstep / sigma) / R.sqrt 2)
        - 1/2 * R.erf (((R.log (Zb jx) - mu - rho * R.log (Zb ix)) / sigma
          - 1/2 * zstep / sigma) / R.sqrt 2))
    Function.update Q1 (ix + nz * (nz - 1))
      (Q1 (ix + nz * (nz - 1)) - Q1 (ix + nz * jx))) Q2

/-- The transition-matrix buffer after `ar1` runs (`src/Thrust/ar1.cpp`,
lines 33-66): first the grid `Z` is filled, then the row loop mutates `P`. -/
def ar1P (R : RealOps F) (nz : ℕ) (mu rho sigma lambda : F) (Z P : ℕ → F) : ℕ → F :=
  (List.range nz).foldl
    (ar1Pbody R nz mu rho sigma lambda (ar1Z R nz mu rho sigma lambda Z)) P

/-- C1 at the `ar1` implementation: with the valid parameter set `nz = 2`,
`mu = 0`, `rho = 0`, `sigma = 1`, `lambda = 1` and zero-initialized buffers,
row 1 of the produced matrix sums to `1/2`, not `1` — under the offset
convention of `ar1`'s own interior/last-column writes (`P[ix + nz*jx]`, so
row 1 is offsets 1 and 3), and likewise row 0 under the row-major reading
(offsets 0 and 1) — because line 57 writes the first column at the
transposed offset `P[ix*nz]` instead of `P[ix]`. -/
theorem c1_ar1_row_sum_bug :
    ar1P idOps 2 0 0 1 1 (fun _ => (0 : ℚ)) (fun _ => (0 : ℚ)) 1
        + ar1P idOps 2 0 0 1 1 (fun _ => (0 : ℚ)) (fun _ => (0 : ℚ)) 3 = 1/2 ∧
      ar1P idOps 2 0 0 1 1 (fun _ => (0 : ℚ)) (fun _ => (0 : ℚ)) 0
        + ar1P idOps 2 0 0 1 1 (fun _ => (0 : ℚ)) (fun _ => (0 : ℚ)) 1 = 1/2 ∧
      ((1 : ℚ)/2 ≠ 1) := by
  refine ⟨?_, ?_, by norm_num⟩ <;>
    norm_num [ar1P, ar1Pbody, ar1Z, ar1zmin, ar1zmax, ar1zstep, ar1sigmaz,
      idOps, List.range, List.range', List.range.loop, Function.update]

/-- Deterministic steady-state capital as written inside `kGrid`
(lines 144-145): `pow((1/(alpha*z))*((1/beta)-1+delta), 1/(alpha-1))`. -/
def kSteady (R : RealOps F) (alpha beta delta z : F) : F :=
  R.pow ((1 / (alpha * z)) * ((1 / beta) - 1 + delta)) (1 / (alpha - 1))

/-- `kGrid` (`src/Thrust-GPU/functors.hpp`, lines 123-149): `nk` equally
spaced capital points from `kmin = 0.95*k*(Z[0])` to
`kmax = 1.05*k*(Z[nz-1])`. -/
def kGridVal (R : RealOps F) (nk nz : ℕ) (beta alpha delta : F) (Z : ℕ → F) (ix : ℕ) : F :=
  let kmin := (95/100 : F) * kSteady R alpha beta delta (Z 0)
  let kmax := (105/100 : F) * kSteady R alpha beta delta (Z (nz - 1))
  let kstep := (kmax - kmin) / ((nk - 1 : ℕ) : F)
  kmin + kstep * (ix : F)

/-- C8: under the economic parameter ranges (with `pow` assumed to behave as
the real power function on positive bases: positive values, antitone in the
base for negative exponents), the capital grid is equally spaced with
endpoints `0.95*k*(Z[0])` and `1.05*k*(Z[nz-1])`, strictly increasing, and
positive. -/
theorem c8_capital_grid (R : RealOps F) (nk nz : ℕ) (beta alpha delta : F) (Z : ℕ → F)
    (hnk : 2 ≤ nk) (halpha0 : 0 < alpha) (halpha1 : alpha < 1)
    (hbeta0 : 0 < beta) (hbeta1 : beta < 1) (hdelta : 0 ≤ delta)
    (hZ0 : 0 < Z 0) (hZle : Z 0 ≤ Z (nz - 1))
    (hpowPos : ∀ a e : F, 0 < a → 0 < R.pow a e)
    (hpowAnti : ∀ a b e : F, 0 < a → a < b → e < 0 → R.pow b e < R.pow a e) :
    kGridVal R nk nz beta alpha delta Z 0
        = (95/100 : F) * kSteady R alpha beta delta (Z 0) ∧
      kGridVal R nk nz beta alpha delta Z (nk - 1)
        = (105/100 : F) * kSteady R alpha beta delta (Z (nz - 1)) ∧
      (∀ i j : ℕ, i < j →
        kGridVal R nk nz beta alpha delta Z i < kGridVal R nk nz beta alpha delta Z j) ∧
      (∀ i : ℕ, 0 < kGridVal R nk nz beta alpha delta Z i) ∧
      (∀ i : ℕ, kGridVal R nk nz beta alpha delta Z (i + 1)
          - kGridVal R nk nz beta alpha delta Z i
        = ((105/100 : F) * kSteady R alpha beta delta (Z (nz - 1))
            - (95/100 : F) * kSteady R alpha beta delta (Z 0)) / ((nk - 1 : ℕ) : F)) := by
  have hZL : 0 < Z (nz - 1) := lt_of_lt_of_le hZ0 hZle
  have hA : 0 < (1 / beta) - 1 + delta := by
    have h1 : 1 < 1 / beta := one_lt_one_div hbeta0 hbeta1
    linarith
  have he : 1 / (alpha - 1) < 0 := by
    apply one_div_neg.mpr
    linarith
  have harg0 : 0 < (1 / (alpha * Z 0)) * ((1 / beta) - 1 + delta) := by
    apply mul_pos _ hA
    apply one_div_pos.mpr
    exact mul_pos halpha0 hZ0
  have hargL : 0 < (1 / (alpha * Z (nz - 1))) * ((1 / beta) - 1 + delta) := by
    apply mul_pos _ hA
    apply one_div_pos.mpr
    exact mul_pos halpha0 hZL
  have hstar0 : 0 < kSteady R alpha beta delta (Z 0) := hpowPos _ _ harg0
  have hstarL : 0 < kSteady R alpha beta delta (Z (nz - 1)) := hpowPos _ _ hargL
  have hstarle : kSteady R alpha beta delta (Z 0) ≤ kSteady R alpha beta delta (Z (nz - 1)) := by
    rcases eq_or_lt_of_le hZle with heq | hlt
    · rw [kSteady, kSteady, heq]
    · apply le_of_lt
      have hargrev : (1 / (alpha * Z (nz - 1))) * ((1 / beta) - 1 + delta)
          < (1 / (alpha * Z 0)) * ((1 / beta) - 1 + delta) := by
        apply mul_lt_mul_of_pos_right _ hA
        apply one_div_lt_one_div_of_lt (mul_pos halpha0 hZ0)
        exact mul_lt_mul_of_pos_left hlt halpha0
      exact hpowAnti _ _ _ hargL hargrev he
  have hden : (0 : F) < ((nk - 1 : ℕ) : F) := by
    have : (1 : ℕ) ≤ nk - 1 := by omega
    exact_mod_cast Nat.lt_of_lt_of_le Nat.zero_lt_one this
  have hkminmax : (95/100 : F) * kSteady R alpha beta delta (Z 0)
      < (105/100 : F) * kSteady R alpha beta delta (Z (nz - 1)) := by
    calc (95/100 : F) * kSteady R alpha beta delta (Z 0)
        < (105/100 : F) * kSteady R alpha beta delta (Z 0) := by linarith
      _ ≤ (105/100 : F) * kSteady R alpha beta delta (Z (nz - 1)) := by linarith
  have hstep : (0 : F) < ((105/100 : F) * kSteady R alpha beta delta (Z (nz - 1))
      - (95/100 : F) * kSteady R alpha beta delta (Z 0)) / ((nk - 1 : ℕ) : F) :=
    div_pos (by linarith) hden
  refine ⟨?_, ?_, ?_, ?_, ?_⟩
  · simp [kGridVal]
  · show _ + _ * ((nk - 1 : ℕ) : F) = _
    rw [div_mul_cancel₀ _ (ne_of_gt hden)]
    ring
  · intro i j hij
    show _ + _ * (i : F) < _ + _ * (j : F)
    have hcast : (i : F) < (j : F) := by exact_mod_cast hij
    have := mul_lt_mul_of_pos_left hcast hstep
    linarith
  · intro i
    show 0 < _ + _ * (i : F)
    have hi : (0 : F) ≤ (i : F) := Nat.cast_nonneg i
    have := mul_nonneg (le_of_lt hstep) hi
    have hkmin : (0 : F) < (95/100 : F) * kSteady R alpha beta delta (Z 0) := by linarith
    linarith
  · intro i
    show (_ + _ * ((i + 1 : ℕ) : F)) - (_ + _ * (i : F)) = _
    push_cast
    ring

/-- A computable `pow` over `ℚ` satisfying the positive-base laws used by
the capital-grid theorem. -/
def invOps : RealOps ℚ := RealOps.mk id id id id (fun a _ => if 0 < a then a⁻¹ else 1)

/-- C8 witness at a concrete configuration. -/
theorem c8_capital_grid_witness :
    kGridVal invOps 2 2 (1/2) (1/2) 0 (fun i => (i + 1 : ℚ)) 0
        = (95/100 : ℚ) * kSteady invOps (1/2) (1/2) 0 ((fun i => (i + 1 : ℚ)) 0) ∧
      0 < kGridVal invOps 2 2 (1/2) (1/2) 0 (fun i => (i + 1 : ℚ)) 1 := by
  have h := c8_capital_grid invOps 2 2 (1/2) (1/2) 0 (fun i => (i + 1 : ℚ))
    (by omega) (by norm_num) (by norm_num) (by norm_num) (by norm_num) (by norm_num)
    (by norm_num) (by norm_num)
    (by
      intro a e ha
      simp only [invOps]
      rw [if_pos ha]
      exact inv_pos.mpr ha)
    (by
      intro a b e ha hab hlt
      simp only [invOps]
      rw [if_pos ha, if_pos (lt_trans ha hab)]
      exact inv_strictAnti₀ ha hab)
  exact ⟨h.1, h.2.2.2.1 1⟩

theorem bmLoop_eq_left (w : ℕ → F) (kslo kshi : ℕ) (w1 w2 : F)
    (hg : 2 < kshi - kslo)
    (hw : w ((kslo + kshi) / 2 + 1) > w ((kslo + kshi) / 2)) :
    bmLoop w kslo kshi w1 w2
      = bmLoop w ((kslo + kshi) / 2) kshi
          (w ((kslo + kshi) / 2)) (w ((kslo + kshi) / 2 + 1)) := by
  rw [bmLoop]
  simp [hg, hw]

theorem bmLoop_eq_right (w : ℕ → F) (kslo kshi : ℕ) (w1 w2 : F)
    (hg : 2 < kshi - kslo)
    (hw : ¬ w ((kslo + kshi) / 2 + 1) > w ((kslo + kshi) / 2)) :
    bmLoop w kslo kshi w1 w2
      = bmLoop w kslo ((kslo + kshi) / 2 + 1)
          (w ((kslo + kshi) / 2)) (w ((kslo + kshi) / 2 + 1)) := by
  rw [bmLoop]
  simp [hg, hw]

theorem bmLoop_eq_done (w : ℕ → F) (kslo kshi : ℕ) (w1 w2 : F)
    (hg : ¬ 2 < kshi - kslo) :
    bmLoop w kslo kshi w1 w2 = (kslo, kshi, w1, w2) := by
  rw [bmLoop, if_neg hg]

/-- Fuel-indexed rendition of the `binary_val` while loop; `none` models the
loop still running when the fuel is exhausted. -/
def bvLoopF (fuel : ℕ) (x : F) (X : ℕ → F) (ilo ihi : ℕ) : Option ℕ :=
  match fuel with
  | 0 => if 1 < ihi - ilo then none else some ihi
  | fuel + 1 =>
    if 1 < ihi - ilo then
      let imid := (ilo + ihi) / 2
      if X imid = x then some imid
      else if X imid > x then bvLoopF fuel x X ilo imid
      else bvLoopF fuel x X imid ihi
    else some ihi

/-- Fuel-indexed rendition of the `binary_max` bracket-shrinking loop. -/
def bmLoopF (fuel : ℕ) (w : ℕ → F) (kslo kshi : ℕ) (w1 w2 : F) :
    Option (ℕ × ℕ × F × F) :=
  match fuel with
  | 0 => if 2 < kshi - kslo then none else some (kslo, kshi, w1, w2)
  | fuel + 1 =>
    if 2 < kshi - kslo then
      let ksmid1 := (kslo + kshi) / 2
      let ksmid2 := ksmid1 + 1
      if w ksmid2 > w ksmid1 then bmLoopF fuel w ksmid1 kshi (w ksmid1) (w ksmid2)
      else bmLoopF fuel w kslo ksmid2 (w ksmid1) (w ksmid2)
    else some (kslo, kshi, w1, w2)

theorem bvLoopF_agree (x : F) (X : ℕ → F) :
    ∀ fuel ilo ihi, ihi - ilo ≤ fuel →
      bvLoopF fuel x X ilo ihi = some (bvLoop x X ilo ihi) := by
  intro fuel
  induction fuel with
  | zero =>
    intro ilo ihi hf
    have hg : ¬ 1 < ihi - ilo := by omega
    rw [bvLoop_eq_done x X ilo ihi hg]
    unfold bvLoopF
    rw [if_neg hg]
  | succ fuel ih =>
    intro ilo ihi hf
    by_cases hg : 1 < ihi - ilo
    · by_cases heq : X ((ilo + ihi) / 2) = x
      · rw [bvLoop_eq_mid x X ilo ihi hg heq]
        unfold bvLoopF
        rw [if_pos hg]
        simp [heq]
      · by_cases hgt : X ((ilo + ihi) / 2) > x
        · rw [bvLoop_eq_left x X ilo ihi hg heq hgt]
          unfold bvLoopF
          rw [if_pos hg]
          simp only [heq, hgt, if_false, if_true]
          exact ih ilo ((ilo + ihi) / 2) (by omega)
        · rw [bvLoop_eq_right x X ilo ihi hg heq hgt]
          unfold bvLoopF
          rw [if_pos hg]
          simp only [heq, hgt, if_false, if_true]
          exact ih ((ilo + ihi) / 2) ihi (by omega)
    · rw [bvLoop_eq_done x X ilo ihi hg]
      unfold bvLoopF
      rw [if_neg hg]

theorem bmLoopF_agree (w : ℕ → F) :
    ∀ fuel kslo kshi w1 w2, kshi - kslo ≤ fuel →
      bmLoopF fuel w kslo kshi w1 w2 = some (bmLoop w kslo kshi w1 w2) := by
  intro fuel
  induction fuel with
  | zero =>
    intro kslo kshi w1 w2 hf
    have hg : ¬ 2 < kshi - kslo := by omega
    rw [bmLoop_eq_done w kslo kshi w1 w2 hg]
    unfold bmLoopF
    rw [if_neg hg]
  | succ fuel ih =>
    intro kslo kshi w1 w2 hf
    by_cases hg : 2 < kshi - kslo
    · by_cases hw : w ((kslo + kshi) / 2 + 1) > w ((kslo + kshi) / 2)
      · rw [bmLoop_eq_left w kslo kshi w1 w2 hg hw]
        unfold bmLoopF
        rw [if_pos hg]
        simp only [hw, if_true]
        exact ih ((kslo + kshi) / 2) kshi _ _ (by omega)
      · rw [bmLoop_eq_right w kslo kshi w1 w2 hg hw]
        unfold bmLoopF
        rw [if_pos hg]
        simp only [hw, if_false]
        exact ih kslo ((kslo + kshi) / 2 + 1) _ _ (by omega)
    · rw [bmLoop_eq_done w kslo kshi w1 w2 hg]
      unfold bmLoopF
      rw [if_neg hg]

/-- C10: both search loops terminate.  The `binary_val` loop needs at most
`ihi - ilo` iterations (its bracket width strictly decreases), and the
`binary_max` loop at most `kshi - kslo`; with that much fuel the fuel-indexed
loops complete and agree with the total functions, so `binary_val` and
`binary_max` always produce a result. -/
theorem c10_loops_terminate (x : F) (X : ℕ → F) (w : ℕ → F) :
    (∀ fuel ilo ihi, ihi - ilo ≤ fuel →
      bvLoopF fuel x X ilo ihi = some (bvLoop x X ilo ihi)) ∧
    (∀ fuel kslo kshi w1 w2, kshi - kslo ≤ fuel →
      bmLoopF fuel w kslo kshi w1 w2 = some (bmLoop w kslo kshi w1 w2)) :=
  ⟨bvLoopF_agree x X, bmLoopF_agree w⟩

/-- C10 witness at concrete inputs. -/
theorem c10_loops_terminate_witness :
    bvLoopF 2 (5 : ℚ) (fun i => if i = 0 then (5 : ℚ) else 7) 0 1
        = some (bvLoop (5 : ℚ) (fun i => if i = 0 then (5 : ℚ) else 7) 0 1) ∧
      bmLoopF 4 (fun i => -((i : ℚ) * i)) 0 4 0 0
        = some (bmLoop (fun i => -((i : ℚ) * i)) 0 4 0 0) :=
  ⟨(c10_loops_terminate (5 : ℚ) (fun i => if i = 0 then (5 : ℚ) else 7)
      (fun i => -((i : ℚ) * i))).1 2 0 1 (by omega),
   (c10_loops_terminate (5 : ℚ) (fun i => if i = 0 then (5 : ℚ) else 7)
      (fun i => -((i : ℚ) * i))).2 4 0 4 0 0 (by omega)⟩

/-- Discrete strict concavity of a sequence on the index range `[0, n)`:
consecutive differences strictly decrease. -/
def strictConcaveSeq (w : ℕ → F) (n : ℕ) : Prop :=
  ∀ l, l + 2 < n → w (l + 2) - w (l + 1) < w (l + 1) - w l

/-- `p` is a maximizer of `w` on `[0, n)`. -/
def maxIn (w : ℕ → F) (n : ℕ) (p : ℕ) : Prop :=
  p < n ∧ ∀ l, l < n → w l ≤ w p

theorem exists_maxIn (w : ℕ → F) (n : ℕ) (hn : 1 ≤ n) : ∃ p, maxIn w n p := by
  obtain ⟨b, hb, hmax⟩ := Finset.exists_max_image (Finset.range n) w
    ⟨0, Finset.mem_range.mpr (by omega)⟩
  exact ⟨b, Finset.mem_range.mp hb,
    fun l hl => hmax l (Finset.mem_range.mpr hl)⟩

theorem sc_diff_mono (w : ℕ → F) (n : ℕ) (hsc : strictConcaveSeq w n) :
    ∀ j, j + 1 < n → ∀ i, i < j → w (j + 1) - w j < w (i + 1) - w i := by
  intro j
  induction j with
  | zero =>
    intro h i hi
    omega
  | succ j ih =>
    intro hj1 i hi
    have hstep : w (j + 2) - w (j + 1) < w (j + 1) - w j := hsc j (by omega)
    rcases Nat.lt_or_ge i j with h | h
    · have := ih (by omega) i h
      have hgoal : w (j + 1 + 1) - w (j + 1) < w (i + 1) - w i := by
        have h2 : (j : ℕ) + 1 + 1 = j + 2 := rfl
        rw [h2]
        linarith
      exact hgoal
    · have hij : i = j := by omega
      subst hij
      exact hsc i (by omega)

theorem sc_left_ramp (w : ℕ → F) (n : ℕ) (hsc : strictConcaveSeq w n) (m : ℕ)
    (hm : m + 1 < n) (hup : w m < w (m + 1)) :
    ∀ l, l ≤ m → w l < w (m + 1) := by
  have key : ∀ d l, l ≤ m → m - l = d → w l < w (m + 1) := by
    intro d
    induction d with
    | zero =>
      intro l hl hd
      have : l = m := by omega
      subst this
      exact hup
    | succ d ih =>
      intro l hl hd
      have hlm : l < m := by omega
      have hnext : w (l + 1) < w (m + 1) := ih (l + 1) (by omega) (by omega)
      have hdiff : w (m + 1) - w m < w (l + 1) - w l :=
        sc_diff_mono w n hsc m hm l hlm
      linarith
  intro l hl
  exact key (m - l) l hl rfl

theorem sc_right_ramp (w : ℕ → F) (n : ℕ) (hsc : strictConcaveSeq w n) (m : ℕ)
    (hm : m + 1 < n) (hdown : w (m + 1) ≤ w m) :
    ∀ l, m + 1 < l → l < n → w l < w (m + 1) := by
  have key : ∀ d l, m + 1 < l → l < n → l - (m + 1) = d → w l < w (m + 1) := by
    intro d
    induction d with
    | zero =>
      intro l h1 h2 hd
      omega
    | succ d ih =>
      intro l h1 h2 hd
      rcases Nat.eq_or_lt_of_le (show m + 2 ≤ l by omega) with heq | hlt
      · have hl2 : l = m + 1 + 1 := by omega
        subst hl2
        have hdiff : w (m + 1 + 1) - w (m + 1) < w (m + 1) - w m :=
          sc_diff_mono w n hsc (m + 1) (by omega) m (by omega)
        linarith
      · have hprev : w (l - 1) < w (m + 1) := ih (l - 1) (by omega) (by omega) (by omega)
        have hdiff : w (l - 1 + 1) - w (l - 1) < w (m + 1) - w m :=
          sc_diff_mono w n hsc (l - 1) (by omega) m (by omega)
        have hl1 : l - 1 + 1 = l := by omega
        rw [hl1] at hdiff
        linarith
  intro l hlo hln
  exact key (l - (m + 1)) l hlo hln rfl

/-- Master invariant of the `binary_max` bracket loop: started on a bracket
of width `> 2` that contains every maximizer of a strictly concave
objective, it exits on a bracket of width exactly two still containing
every maximizer, and the carried `w1`, `w2` are the objective values at the
last midpoints, positioned according to the exit branch. -/
theorem bmLoop_master (w : ℕ → F) (n : ℕ) (hsc : strictConcaveSeq w n) :
    ∀ d kslo kshi w1 w2, kshi - kslo ≤ d → kshi < n → 2 < kshi - kslo →
      (∀ p, maxIn w n p → kslo ≤ p ∧ p ≤ kshi) →
      ∃ a u1 u2, bmLoop w kslo kshi w1 w2 = (a, a + 2, u1, u2) ∧
        kslo ≤ a ∧ a + 2 ≤ kshi ∧
        (∀ p, maxIn w n p → a ≤ p ∧ p ≤ a + 2) ∧
        ((u2 > u1 ∧ u1 = w a ∧ u2 = w (a + 1)) ∨
         (¬ u2 > u1 ∧ u1 = w (a + 1) ∧ u2 = w (a + 2))) := by
  intro d
  induction d with
  | zero =>
    intro kslo kshi w1 w2 hd hn2 hgt hcont
    omega
  | succ d ih =>
    intro kslo kshi w1 w2 hd hn2 hgt hcont
    by_cases hw : w ((kslo + kshi) / 2 + 1) > w ((kslo + kshi) / 2)
    · -- revise the lower bound: kslo := ksmid1
      have hcont2 : ∀ p, maxIn w n p → (kslo + kshi) / 2 ≤ p ∧ p ≤ kshi := by
        intro p hp
        by_cases hple : p ≤ (kslo + kshi) / 2
        · exfalso
          have h1 : w p < w ((kslo + kshi) / 2 + 1) :=
            sc_left_ramp w n hsc ((kslo + kshi) / 2) (by omega) hw p hple
          have h2 : w ((kslo + kshi) / 2 + 1) ≤ w p := hp.2 _ (by omega)
          linarith
        · exact ⟨by omega, (hcont p hp).2⟩
      rw [bmLoop_eq_left w kslo kshi w1 w2 hgt hw]
      by_cases hg2 : 2 < kshi - (kslo + kshi) / 2
      · obtain ⟨a, u1, u2, heq, hal, hau, hacont, hdisj⟩ :=
          ih ((kslo + kshi) / 2) kshi (w ((kslo + kshi) / 2))
            (w ((kslo + kshi) / 2 + 1)) (by omega) hn2 hg2 hcont2
        exact ⟨a, u1, u2, heq, by omega, hau, hacont, hdisj⟩
      · rw [bmLoop_eq_done w _ kshi _ _ hg2]
        have hkshi : kshi = (kslo + kshi) / 2 + 2 := by omega
        refine ⟨(kslo + kshi) / 2, w ((kslo + kshi) / 2),
          w ((kslo + kshi) / 2 + 1), by rw [← hkshi], by omega, by omega, ?_, ?_⟩
        · intro p hp
          have := hcont2 p hp
          omega
        · left
          exact ⟨hw, rfl, rfl⟩
    · -- revise the upper bound: kshi := ksmid2
      have hdown : w ((kslo + kshi) / 2 + 1) ≤ w ((kslo + kshi) / 2) := le_of_not_lt hw
      have hcont2 : ∀ p, maxIn w n p → kslo ≤ p ∧ p ≤ (kslo + kshi) / 2 + 1 := by
        intro p hp
        by_cases hpgt : (kslo + kshi) / 2 + 1 < p
        · exfalso
          have h1 : w p < w ((kslo + kshi) / 2 + 1) :=
            sc_right_ramp w n hsc ((kslo + kshi) / 2) (by omega) hdown p hpgt hp.1
          have h2 : w ((kslo + kshi) / 2 + 1) ≤ w p := hp.2 _ (by omega)
          linarith
        · exact ⟨(hcont p hp).1, by omega⟩
      rw [bmLoop_eq_right w kslo kshi w1 w2 hgt hw]
      by_cases hg2 : 2 < (kslo + kshi) / 2 + 1 - kslo
      · obtain ⟨a, u1, u2, heq, hal, hau, hacont, hdisj⟩ :=
          ih kslo ((kslo + kshi) / 2 + 1) (w ((kslo + kshi) / 2))
            (w ((kslo + kshi) / 2 + 1)) (by omega) (by omega) hg2 hcont2
        exact ⟨a, u1, u2, heq, hal, by omega, hacont, hdisj⟩
      · rw [bmLoop_eq_done w kslo _ _ _ hg2]
        have hm1 : (kslo + kshi) / 2 = kslo + 1 := by omega
        refine ⟨kslo, w ((kslo + kshi) / 2), w ((kslo + kshi) / 2 + 1),
          by rw [hm1], by omega, by omega, ?_, ?_⟩
        · intro p hp
          have := hcont2 p hp
          omega
        · right
          rw [hm1]
          exact ⟨by rw [hm1] at hw; exact hw, rfl, rfl⟩

/-- Under strict concavity, `binary_max`'s core returns the objective value
of some maximizer together with `klo` plus that maximizer. -/
theorem bmaxCore_argmax (w : ℕ → F) (klo n : ℕ) (hn : 1 ≤ n)
    (hsc : strictConcaveSeq w n) :
    ∃ p, maxIn w n p ∧ bmaxCore w klo n = (w p, klo + p) := by
  obtain ⟨q, hq⟩ := exists_maxIn w n hn
  unfold bmaxCore
  by_cases h4 : 3 < n
  · rw [if_pos h4]
    obtain ⟨a, u1, u2, heq, hal, hau, hacont, hdisj⟩ :=
      bmLoop_master w n hsc n 0 (n - 1) 0 0 (by omega) (by omega) (by omega)
        (fun p hp => ⟨by omega, by have := hp.1; omega⟩)
    rw [heq]
    have ha2 : a + 2 < n := by omega
    have hqa := hacont q hq
    have hq3 : q = a ∨ q = a + 1 ∨ q = a + 2 := by omega
    rcases hdisj with ⟨hgt, h1, h2⟩ | ⟨hle, h1, h2⟩
    · subst h1
      subst h2
      simp only [if_pos hgt]
      by_cases hcmp : w (a + 1) > w (a + 2)
      · rw [if_pos hcmp]
        refine ⟨a + 1, ⟨by omega, ?_⟩, rfl⟩
        intro l hl
        have hlq := hq.2 l hl
        rcases hq3 with h | h | h <;> subst h <;> linarith
      · rw [if_neg hcmp]
        refine ⟨a + 2, ⟨by omega, ?_⟩, rfl⟩
        intro l hl
        have hlq := hq.2 l hl
        rcases hq3 with h | h | h <;> subst h <;> linarith [le_of_not_lt hcmp]
    · subst h1
      subst h2
      simp only [if_neg hle]
      by_cases hcmp : w a > w (a + 1)
      · rw [if_pos hcmp]
        refine ⟨a, ⟨by omega, ?_⟩, rfl⟩
        intro l hl
        have hlq := hq.2 l hl
        rcases hq3 with h | h | h <;> subst h <;> linarith [le_of_not_lt hle]
      · rw [if_neg hcmp]
        refine ⟨a + 1, ⟨by omega, ?_⟩, rfl⟩
        intro l hl
        have hlq := hq.2 l hl
        rcases hq3 with h | h | h <;> subst h <;>
          linarith [le_of_not_lt hle, le_of_not_lt hcmp]
  · rw [if_neg h4]
    by_cases h3 : n = 3
    · subst h3
      rw [if_pos rfl]
      have hq3 : q = 0 ∨ q = 1 ∨ q = 2 := by have := hq.1; omega
      by_cases h10 : w 1 > w 0
      · by_cases h21 : w 2 > w 1
        · refine ⟨2, ⟨by omega, ?_⟩, ?_⟩
          · intro l hl
            have : l = 0 ∨ l = 1 ∨ l = 2 := by omega
            rcases this with h | h | h <;> subst h <;> linarith
          · simp only [if_pos h10, if_pos h21]
        · refine ⟨1, ⟨by omega, ?_⟩, ?_⟩
          · intro l hl
            have : l = 0 ∨ l = 1 ∨ l = 2 := by omega
            rcases this with h | h | h <;> subst h <;>
              linarith [le_of_not_lt h21]
          · simp only [if_pos h10, if_neg h21]
      · by_cases h20 : w 2 > w 0
        · refine ⟨2, ⟨by omega, ?_⟩, ?_⟩
          · intro l hl
            have : l = 0 ∨ l = 1 ∨ l = 2 := by omega
            rcases this with h | h | h <;> subst h <;>
              linarith [le_of_not_lt h10]
          · simp only [if_neg h10, if_pos h20]
        · refine ⟨0, ⟨by omega, ?_⟩, ?_⟩
          · intro l hl
            have : l = 0 ∨ l = 1 ∨ l = 2 := by omega
            rcases this with h | h | h <;> subst h <;>
              linarith [le_of_not_lt h10, le_of_not_lt h20]
          · simp only [if_neg h10, if_neg h20]
            rfl
    · rw [if_neg h3]
      have hn2 : n = 1 ∨ n = 2 := by omega
      by_cases hc : w (n - 1) > w 0
      · refine ⟨n - 1, ⟨by omega, ?_⟩, ?_⟩
        · intro l hl
          have : l = 0 ∨ l = n - 1 := by omega
          rcases this with h | h <;> subst h <;> linarith
        · simp only [if_pos hc]
      · refine ⟨0, ⟨by omega, ?_⟩, ?_⟩
        · intro l hl
          have : l = 0 ∨ l = n - 1 := by omega
          rcases this with h | h
          · subst h
            linarith
          · rw [h]
            exact le_of_not_lt hc
        · simp only [if_neg hc]
          rfl

/-- Strict concavity of the full Bellman objective from strict concavity of
the utility part and of each `V0` column, nonnegative transition weights,
and a nonnegative discount factor. -/
theorem sc_objective (R : RealOps F) (klo nksub nk nz : ℕ) (ydepK eta beta : F)
    (K P V0 : ℕ → F)
    (huconc : strictConcaveSeq (fun l => crra R eta (ydepK - K (klo + l))) nksub)
    (hvconc : ∀ m, m < nz → strictConcaveSeq (fun l => V0 (l + m * nk)) nksub)
    (hP : ∀ m, m < nz → 0 ≤ P (m * nz)) (hbeta : 0 ≤ beta) :
    strictConcaveSeq
      (fun l => crra R eta (ydepK - K (klo + l)) + beta * expSum nz nk P V0 l)
      nksub := by
  intro l hl
  have hu : crra R eta (ydepK - K (klo + (l + 2)))
      - crra R eta (ydepK - K (klo + (l + 1)))
      < crra R eta (ydepK - K (klo + (l + 1))) - crra R eta (ydepK - K (klo + l)) :=
    huconc l hl
  have hexp : expSum nz nk P V0 (l + 2) + expSum nz nk P V0 l
      - 2 * expSum nz nk P V0 (l + 1)
      = ∑ m ∈ Finset.range nz,
          P (m * nz) * (V0 (l + 2 + m * nk) + V0 (l + m * nk)
            - 2 * V0 (l + 1 + m * nk)) := by
    unfold expSum
    rw [← Finset.sum_add_distrib, Finset.mul_sum, ← Finset.sum_sub_distrib]
    refine Finset.sum_congr rfl ?_
    intro m hm
    ring
  have hsum : (∑ m ∈ Finset.range nz,
      P (m * nz) * (V0 (l + 2 + m * nk) + V0 (l + m * nk)
        - 2 * V0 (l + 1 + m * nk))) ≤ 0 := by
    apply Finset.sum_nonpos
    intro m hm
    have hv : V0 (l + 2 + m * nk) - V0 (l + 1 + m * nk)
        < V0 (l + 1 + m * nk) - V0 (l + m * nk) :=
      hvconc m (Finset.mem_range.mp hm) l hl
    have hp0 := hP m (Finset.mem_range.mp hm)
    exact mul_nonpos_iff.mpr (Or.inl ⟨hp0, by linarith⟩)
  have hb : beta * (expSum nz nk P V0 (l + 2) + expSum nz nk P V0 l
      - 2 * expSum nz nk P V0 (l + 1)) ≤ 0 := by
    rw [hexp]
    exact mul_nonpos_iff.mpr (Or.inl ⟨hbeta, hsum⟩)
  have hdist : beta * (expSum nz nk P V0 (l + 2) + expSum nz nk P V0 l
      - 2 * expSum nz nk P V0 (l + 1))
      = beta * expSum nz nk P V0 (l + 2) + beta * expSum nz nk P V0 l
        - 2 * (beta * expSum nz nk P V0 (l + 1)) := by ring
  rw [hdist] at hb
  show crra R eta (ydepK - K (klo + (l + 2))) + beta * expSum nz nk P V0 (l + 2)
      - (crra R eta (ydepK - K (klo + (l + 1))) + beta * expSum nz nk P V0 (l + 1))
      < crra R eta (ydepK - K (klo + (l + 1))) + beta * expSum nz nk P V0 (l + 1)
        - (crra R eta (ydepK - K (klo + l)) + beta * expSum nz nk P V0 l)
  linarith

/-- C4 (amended): under a strictly concave Bellman objective — `V0` strictly
concave in capital per productivity column, strictly concave utility term,
nonnegative transition weights and discount factor — `binary_max` and
`grid_max` write the same maximal objective value; when the maximizer is
unique they also write the same argmax index (with a two-point tie they can
differ, see the counterexample). -/
theorem c4_grid_binary_agree (R : RealOps F) (klo nksub nk nz : ℕ)
    (ydepK eta beta : F) (K P V0 : ℕ → F) (hn : 1 ≤ nksub)
    (huconc : strictConcaveSeq (fun l => crra R eta (ydepK - K (klo + l))) nksub)
    (hvconc : ∀ m, m < nz → strictConcaveSeq (fun l => V0 (l + m * nk)) nksub)
    (hP : ∀ m, m < nz → 0 ≤ P (m * nz)) (hbeta : 0 ≤ beta) :
    (binary_max R klo nksub nk nz ydepK eta beta K P V0).1
        = (grid_max R klo nksub nk nz ydepK eta beta K P V0).1 ∧
      ((∀ p q, maxIn (fun l => crra R eta (ydepK - K (klo + l))
            + beta * expSum nz nk P V0 l) nksub p →
          maxIn (fun l => crra R eta (ydepK - K (klo + l))
            + beta * expSum nz nk P V0 l) nksub q → p = q) →
        (binary_max R klo nksub nk nz ydepK eta beta K P V0).2
          = (grid_max R klo nksub nk nz ydepK eta beta K P V0).2) := by
  have hsc := sc_objective R klo nksub nk nz ydepK eta beta K P V0
    huconc hvconc hP hbeta
  obtain ⟨p, hp, heq⟩ := bmaxCore_argmax
    (fun l => crra R eta (ydepK - K (klo + l)) + beta * expSum nz nk P V0 l)
    klo nksub hn hsc
  have hbin : binary_max R klo nksub nk nz ydepK eta beta K P V0
      = ((fun l => crra R eta (ydepK - K (klo + l))
          + beta * expSum nz nk P V0 l) p, klo + p) := heq
  have hscan := scanAux_spec
    (fun l => crra R eta (ydepK - K (klo + l)) + beta * expSum nz nk P V0 l)
    (nksub - 1)
  have hg2 : (scanAux (fun l => crra R eta (ydepK - K (klo + l))
      + beta * expSum nz nk P V0 l) (nksub - 1)).2 < nksub := by
    have := hscan.1
    omega
  have hgmax : maxIn (fun l => crra R eta (ydepK - K (klo + l))
      + beta * expSum nz nk P V0 l) nksub
      (scanAux (fun l => crra R eta (ydepK - K (klo + l))
        + beta * expSum nz nk P V0 l) (nksub - 1)).2 := by
    refine ⟨hg2, ?_⟩
    intro l hl
    simp only []
    rw [hscan.2.1]
    exact hscan.2.2 l (by omega)
  constructor
  · show (binary_max R klo nksub nk nz ydepK eta beta K P V0).1
      = (scanAux (fun l => crra R eta (ydepK - K (klo + l))
          + beta * expSum nz nk P V0 l) (nksub - 1)).1
    rw [hbin, ← hscan.2.1]
    exact le_antisymm (hgmax.2 p hp.1) (hp.2 _ hg2)
  · intro huniq
    show (binary_max R klo nksub nk nz ydepK eta beta K P V0).2
      = klo + (scanAux (fun l => crra R eta (ydepK - K (klo + l))
          + beta * expSum nz nk P V0 l) (nksub - 1)).2
    rw [hbin]
    rw [huniq p _ hp hgmax]

/-- A strictly concave value-function column with a two-point plateau at its
maximum: values `0, 3, 5, 6, 6`. -/
def vTie : ℕ → ℚ := fun l => if l = 0 then 0 else if l = 1 then 3 else if l = 2 then 5 else 6

/-- C4 counterexample: with `nz = 1`, a constant capital grid and zero
utility term, the Bellman objective equals the strictly concave column
`vTie`, whose maximum is attained at the adjacent indices 3 and 4.  Both
maximizers report the same maximal value, but `grid_max` writes argmax 3
while `binary_max` writes argmax 4, so the claim that they always agree on
the argmax index is false. -/
theorem c4_tie_argmax_differs :
    (∀ m, m < 1 → strictConcaveSeq (fun l => vTie (l + m * 5)) 5) ∧
      (grid_max idOps 0 5 5 1 1 0 1 (fun _ => (1 : ℚ)) (fun _ => (1 : ℚ)) vTie).1
        = (binary_max idOps 0 5 5 1 1 0 1 (fun _ => (1 : ℚ)) (fun _ => (1 : ℚ)) vTie).1 ∧
      (grid_max idOps 0 5 5 1 1 0 1 (fun _ => (1 : ℚ)) (fun _ => (1 : ℚ)) vTie).2 = 3 ∧
      (binary_max idOps 0 5 5 1 1 0 1 (fun _ => (1 : ℚ)) (fun _ => (1 : ℚ)) vTie).2 = 4 := by
  have hwfun : (fun l => crra idOps 0 ((1 : ℚ) - (fun _ : ℕ => (1 : ℚ)) (0 + l))
      + 1 * expSum 1 5 (fun _ => (1 : ℚ)) vTie l) = vTie := by
    funext l
    norm_num [crra, expSum, idOps, Finset.sum_range_one]
  have hscan : scanAux vTie (5 - 1) = (6, 3) := by decide
  have hgrid : grid_max idOps 0 5 5 1 1 0 1 (fun _ => (1 : ℚ)) (fun _ => (1 : ℚ)) vTie
      = (6, 3) := by
    show ((scanAux (fun l => crra idOps 0 ((1 : ℚ) - (fun _ : ℕ => (1 : ℚ)) (0 + l))
        + 1 * expSum 1 5 (fun _ => (1 : ℚ)) vTie l) (5 - 1)).1,
      0 + (scanAux (fun l => crra idOps 0 ((1 : ℚ) - (fun _ : ℕ => (1 : ℚ)) (0 + l))
        + 1 * expSum 1 5 (fun _ => (1 : ℚ)) vTie l) (5 - 1)).2) = ((6 : ℚ), 3)
    rw [hwfun, hscan]
    rfl
  have hloop : bmLoop vTie 0 (5 - 1) 0 0 = (2, 4, 5, 6) := by
    rw [bmLoop_eq_left vTie 0 (5 - 1) 0 0 (by norm_num) (by decide)]
    rw [bmLoop_eq_done vTie _ _ _ _ (by norm_num)]
    decide
  have hbin : binary_max idOps 0 5 5 1 1 0 1 (fun _ => (1 : ℚ)) (fun _ => (1 : ℚ)) vTie
      = (6, 4) := by
    show bmaxCore (fun l => crra idOps 0 ((1 : ℚ) - (fun _ : ℕ => (1 : ℚ)) (0 + l))
        + 1 * expSum 1 5 (fun _ => (1 : ℚ)) vTie l) 0 5 = (6, 4)
    rw [hwfun]
    unfold bmaxCore
    rw [if_pos (show 3 < 5 by norm_num), hloop]
    decide
  refine ⟨?_, by rw [hgrid, hbin], by rw [hgrid], by rw [hbin]⟩
  intro m hm
  interval_cases m
  intro l hl
  have hl3 : l < 3 := by omega
  interval_cases l <;> norm_num [vTie]

/-- C4 witness: a strictly concave objective with a unique maximizer, on
which the two maximizers agree in value and index. -/
theorem c4_grid_binary_agree_witness :
    (binary_max idOps 0 4 4 1 20 0 1 (fun l => ((l : ℚ) * l)) (fun _ => (1 : ℚ))
        (fun l => -((l : ℚ) * l))).1
      = (grid_max idOps 0 4 4 1 20 0 1 (fun l => ((l : ℚ) * l)) (fun _ => (1 : ℚ))
        (fun l => -((l : ℚ) * l))).1 ∧
    (binary_max idOps 0 4 4 1 20 0 1 (fun l => ((l : ℚ) * l)) (fun _ => (1 : ℚ))
        (fun l => -((l : ℚ) * l))).2
      = (grid_max idOps 0 4 4 1 20 0 1 (fun l => ((l : ℚ) * l)) (fun _ => (1 : ℚ))
        (fun l => -((l : ℚ) * l))).2 := by
  have h := c4_grid_binary_agree idOps 0 4 4 1 (20 : ℚ) 0 1
    (fun l => ((l : ℚ) * l)) (fun _ => (1 : ℚ)) (fun l => -((l : ℚ) * l))
    (by omega)
    (by
      intro l hl
      have hl2 : l < 2 := by omega
      interval_cases l <;> norm_num [crra, idOps])
    (by
      intro m hm
      interval_cases m
      intro l hl
      have hl2 : l < 2 := by omega
      interval_cases l <;> norm_num)
    (by
      intro m hm
      norm_num)
    (by norm_num)
  refine ⟨h.1, h.2 ?_⟩
  intro p q hp hq
  have hp1 := hp.1
  have hq1 := hq.1
  have hp0 := hp.2 0 (by omega)
  have hq0 := hq.2 0 (by omega)
  interval_cases p <;> interval_cases q <;>
    first
      | rfl
      | (exfalso
         norm_num [crra, expSum, idOps, Finset.sum_range_succ,
           Finset.sum_range_zero] at hp0 hq0)

end VFI
